import Mathlib

/-!
Verification development for the SEC-funds/CRSP fuzzy-matching engine.

Strings are embedded as `List Char`.  Python `int`/`float` arithmetic is
embedded over `ℕ`/`ℤ`/`ℚ`, with the binary64 (IEEE double) roundings of the
scorer's final divisions modelled explicitly by `rnd` below; Python errors
(`TypeError`, `IndexError`, `UnboundLocalError`, `ZeroDivisionError`) are
modelled with `Except PyErr`.
-/

namespace FuzzyMatch

abbrev Str := List Char

/-- Python error classes that the embedded code can raise. -/
inductive PyErr where
  | typeError
  | indexError
  | nameError
  | zeroDivision
  deriving DecidableEq, Repr

instance {ε α : Type} [DecidableEq ε] [DecidableEq α] :
    DecidableEq (Except ε α)
  | .ok a, .ok b =>
    if h : a = b then .isTrue (by rw [h])
    else .isFalse (by intro hh; cases hh; exact h rfl)
  | .ok _, .error _ => .isFalse (by intro h; cases h)
  | .error _, .ok _ => .isFalse (by intro h; cases h)
  | .error e, .error f =>
    if h : e = f then .isTrue (by rw [h])
    else .isFalse (by intro hh; cases hh; exact h rfl)

/-- `str.isdigit` restricted to ASCII, which is all the preprocessed
strings of this repository can contain. -/
def isDigitChar (c : Char) : Bool := '0' ≤ c && c ≤ '9'

/-- Python whitespace, as split on by `str.split()` with no argument. -/
def isWsChar (c : Char) : Bool :=
  c = ' ' || c = '\t' || c = '\n' || c = '\x0d' || c = '\x0b' || c = '\x0c'

/-! ## SequenceAligner

Modelled from the spec: the repository imports the aligner
(`fuzzywuzzy.StringMatcher`, alternative `difflib.SequenceMatcher`); its code
is not under `src/`.  Spec §4.1: find the single longest contiguous substring
common to `a` and `b`; on ties prefer the occurrence with smallest start
index in `a`, then smallest start index in `b`; recursively align the prefix
before the match and the suffix after it; no junk heuristic.
`get_matching_blocks` appends the terminating block `(len a, len b, 0)`. -/

/-- Length of the common run of two lists read from their heads. -/
def commonRun : List Char → List Char → ℕ
  | c :: cs, d :: ds => if c = d then commonRun cs ds + 1 else 0
  | _, _ => 0

/-- A matching block `(i, j, k)`: `a[i:i+k] = b[j:j+k]`. -/
abbrev Block := ℕ × ℕ × ℕ

/-- Length of the common run of `a` and `b` starting at `(i, j)`, truncated
to the index ranges `[i, ahi)` and `[j, bhi)`. -/
def runAt (a b : Str) (ahi bhi i j : ℕ) : ℕ :=
  commonRun ((a.drop i).take (ahi - i)) ((b.drop j).take (bhi - j))

/-- Scan of the candidate start pairs: replace the current best only on a
strictly longer run, so the first-scanned maximal `(i, j)` wins. -/
def lmGo (a b : Str) (ahi bhi : ℕ) : List (ℕ × ℕ) → Block → Block
  | [], best => best
  | ij :: rest, best =>
    if best.2.2 < runAt a b ahi bhi ij.1 ij.2 then
      lmGo a b ahi bhi rest (ij.1, ij.2, runAt a b ahi bhi ij.1 ij.2)
    else lmGo a b ahi bhi rest best

/-- The candidate start pairs `(i, j)`, `i` ascending then `j` ascending. -/
def gridOf (alo ahi blo bhi : ℕ) : List (ℕ × ℕ) :=
  (List.range' alo (ahi - alo)).flatMap
    (fun i => (List.range' blo (bhi - blo)).map (fun j => (i, j)))

/-- Longest matching block in `a[alo:ahi]` × `b[blo:bhi]`, ties to the
smallest start in `a`, then the smallest start in `b`. -/
def longestMatch (a b : Str) (alo ahi blo bhi : ℕ) : Block :=
  lmGo a b ahi bhi (gridOf alo ahi blo bhi) (alo, blo, 0)

/-- Recursive greedy partition around the longest match.  The fuel only
bounds the recursion depth; `a.length + 1` is always sufficient because each
level strictly shrinks the `a`-range. -/
def mbAux (a b : Str) : ℕ → ℕ → ℕ → ℕ → ℕ → List Block
  | 0, _, _, _, _ => []
  | fuel + 1, alo, ahi, blo, bhi =>
    let t := longestMatch a b alo ahi blo bhi
    if t.2.2 = 0 then []
    else
      mbAux a b fuel alo t.1 blo t.2.1 ++ [t] ++
        mbAux a b fuel (t.1 + t.2.2) ahi (t.2.1 + t.2.2) bhi

/-- `get_matching_blocks`, with the terminating `(len a, len b, 0)` block. -/
def getMatchingBlocks (a b : Str) : List Block :=
  mbAux a b (a.length + 1) 0 a.length 0 b.length ++ [(a.length, b.length, 0)]

/-! ## Exact rational arithmetic without normalization

Python's numeric values in the scorer are embedded as unnormalized fractions
of integers, so that every operation is plain integer arithmetic (`Rat`
would normalize with `Nat.gcd`, which blocks definitional evaluation).  All
fractions built by the embedding keep a positive denominator. -/

structure Frac where
  num : ℤ
  den : ℤ
  deriving DecidableEq, Repr

namespace Frac

/-- The rational value of a fraction. -/
def val (x : Frac) : ℚ := (x.num : ℚ) / (x.den : ℚ)

def ofInt (n : ℤ) : Frac := ⟨n, 1⟩

def add (a b : Frac) : Frac := ⟨a.num * b.den + b.num * a.den, a.den * b.den⟩

def mul (a b : Frac) : Frac := ⟨a.num * b.num, a.den * b.den⟩

/-- Division, with the sign moved into the numerator so that a positive
denominator is preserved whenever the divisor is nonzero. -/
def div (a b : Frac) : Frac :=
  if b.num < 0 then ⟨-(a.num * b.den), -(a.den * b.num)⟩
  else ⟨a.num * b.den, a.den * b.num⟩

/-- Value comparison, assuming positive denominators. -/
def le (a b : Frac) : Prop := a.num * b.den ≤ b.num * a.den

/-- Strict value comparison, assuming positive denominators. -/
def lt (a b : Frac) : Prop := a.num * b.den < b.num * a.den

instance (a b : Frac) : Decidable (le a b) := Int.decLe _ _

instance (a b : Frac) : Decidable (lt a b) := Int.decLt _ _

/-- Floor of the value, assuming a positive denominator. -/
def floor (x : Frac) : ℤ := Int.fdiv x.num x.den

/-- Truncation of the value toward zero (Python `int()` on a float);
correct for either sign of the numerator. -/
def trunc (x : Frac) : ℤ := Int.tdiv x.num x.den

end Frac

/-- Base-2 logarithm by structural recursion on a fuel bound (`Nat.log2`
itself is defined by well-founded recursion and does not evaluate
definitionally). -/
def log2F : ℕ → ℕ → ℕ
  | 0, _ => 0
  | f + 1, n => if 2 ≤ n then log2F f (n / 2) + 1 else 0

/-- `Nat.log2` replacement used by the rounding model. -/
def natLog2 (n : ℕ) : ℕ := log2F n n

/-! ## Binary64 rounding model

The scorer's final lines run in Python floats.  `rnd` models one IEEE
round-to-nearest-even of a positive rational to 53 significand bits (normal
range; negative and zero inputs, which the scorer never produces, are left
exact).  If the computed exponent fails its bracket check the value is also
left exact, so `rnd x` is always either the correctly rounded binary64 value
or `x` itself. -/

/-- `2 ^ e` as a fraction, for an integer exponent. -/
def qpow2 (e : ℤ) : Frac :=
  if 0 ≤ e then ⟨2 ^ e.toNat, 1⟩ else ⟨1, 2 ^ (-e).toNat⟩

/-- Round the value of a fraction (positive denominator assumed) to the
nearest integer, ties to even. -/
def roundNE (s : Frac) : ℤ :=
  let n := Int.fdiv s.num s.den
  let r := s.num - n * s.den
  if s.den < 2 * r then n + 1
  else if 2 * r < s.den then n
  else if n % 2 = 0 then n else n + 1

/-- Round the value of a fraction to binary64 (see section comment). -/
def rnd (x : Frac) : Frac :=
  if 0 < x.num * x.den then
    let e0 : ℤ := (natLog2 x.num.toNat : ℤ) - (natLog2 x.den.toNat : ℤ)
    let e : ℤ := if (qpow2 e0).le x then e0 else e0 - 1
    if (qpow2 e).le x ∧ x.lt (qpow2 (e + 1)) then
      (Frac.ofInt (roundNE (x.mul (qpow2 (52 - e))))).mul (qpow2 (e - 52))
    else x
  else x

/-- `int(100 * (m / t))` with both operations in binary64. -/
def fratio100 (m t : Frac) : ℤ := (rnd ((Frac.ofInt 100).mul (rnd (m.div t)))).trunc

/-! ## FuzzyScorer (`src/c2_fuzz_scorer.py`) -/

/-- Penalty weight of one unmatched character. -/
def charWeight (dm : Frac) (c : Char) : Frac :=
  if isDigitChar c then dm else Frac.ofInt 1

/-- Positions of `a` (first components) not covered while scanning the
matching blocks, exactly as `compute_score` builds `diff_a`. -/
def diffA : ℕ → List Block → List ℕ
  | _, [] => []
  | pa, (i, _, k) :: rest => List.range' pa (i - pa) ++ diffA (i + k) rest

/-- Positions of `b` (second components) not covered while scanning the
matching blocks, exactly as `compute_score` builds `diff_b`. -/
def diffB : ℕ → List Block → List ℕ
  | _, [] => []
  | pb, (_, j, k) :: rest => List.range' pb (j - pb) ++ diffB (j + k) rest

/-- Sum of penalty weights of a string at a list of positions. -/
def penaltyAt (dm : Frac) (s : Str) (ps : List ℕ) : Frac :=
  (ps.map (fun i => charWeight dm (s.getD i ' '))).foldl Frac.add (Frac.ofInt 0)

/-- Total length of the matching blocks. -/
def matchesOf (bs : List Block) : ℕ := (bs.map (fun t => t.2.2)).sum

/-- `FuzzyScorer.compute_score` on sequences `seq1 = a`, `seq2 = b`:
empty-string short cuts, scan-based unmatched positions, digit-weighted
penalty, final `int(100*(matches/(matches+penalty)))` in floats
(`ZeroDivisionError` when `matches + penalty = 0`). -/
def computeScore (dm : Frac) (a b : Str) : Except PyErr ℤ :=
  if a.length = 0 ∧ b.length = 0 then .ok 100
  else if a.length = 0 ∨ b.length = 0 then .ok 0
  else
    let bs := getMatchingBlocks a b
    let m := matchesOf bs
    let p := (penaltyAt dm a (diffA 0 bs)).add (penaltyAt dm b (diffB 0 bs))
    let t := (Frac.ofInt m).add p
    if t.num = 0 then .error .zeroDivision
    else .ok (fratio100 (Frac.ofInt m) t)

/-- `str.split()`: split on runs of whitespace, no empty tokens. -/
def splitWs : Str → List Str
  | [] => []
  | c :: cs =>
    if isWsChar c then splitWs cs
    else
      match splitWs cs, cs with
      | [], _ => [[c]]
      | w :: ws, d :: _ => if isWsChar d then [c] :: w :: ws else (c :: w) :: ws
      | w :: ws, [] => (c :: w) :: ws

/-- Python string comparison: lexicographic on code points. -/
def strLt : Str → Str → Bool
  | _, [] => false
  | [], _ :: _ => true
  | c :: cs, d :: ds => if c = d then strLt cs ds else decide (c < d)

/-- Insertion step of a stable ascending sort by `strLt`. -/
def insertStr (w : Str) : List Str → List Str
  | [] => [w]
  | v :: vs => if strLt v w then v :: insertStr w vs else w :: v :: vs

/-- Python `sorted` on a list of strings. -/
def sortStrs : List Str → List Str
  | [] => []
  | w :: ws => insertStr w (sortStrs ws)

/-- `' '.join(...)`. -/
def joinSpace : List Str → Str
  | [] => []
  | [w] => w
  | w :: ws => w ++ ' ' :: joinSpace ws

/-- `FuzzyScorer.sort_and_token`: `None` becomes `''`. -/
def sortAndToken : Option Str → Str
  | none => []
  | some s => joinSpace (sortStrs (splitWs s))

/-- `FuzzyScorer.real_quick_ratio`: `int(100 * 2.0 * min(l1,l2) / (l1+l2))`;
the product is integral and exact in binary64 for every realizable length,
so only the division is rounded. -/
def realQuickRatio (a b : Str) : ℤ :=
  if a.length = 0 ∧ b.length = 0 then 100
  else
    (rnd ((Frac.ofInt (100 * 2 * min a.length b.length : ℕ)).div
      (Frac.ofInt (a.length + b.length : ℕ)))).trunc

/-- The scorer object: `__init__` stores the two sequences (tokenized when
`sorted_token` is set), the multiplier and the flag.  No validation is
performed.  Sequences are `Option Str`: `none` models a non-string entry
(e.g. `NaN`), on which length operations raise `TypeError`. -/
structure FuzzyScorer where
  seq1 : Option Str
  seq2 : Option Str
  digit_multiplier : Frac
  sorted_token : Bool
  deriving DecidableEq, Repr

/-- `FuzzyScorer.__init__ (to_match, choice, digit_multiplier, sorted_token)`. -/
def FuzzyScorer.init (to_match choice : Option Str) (dm : Frac) (st : Bool) :
    FuzzyScorer :=
  if st then
    { seq1 := some (sortAndToken choice), seq2 := some (sortAndToken to_match),
      digit_multiplier := dm, sorted_token := st }
  else
    { seq1 := choice, seq2 := to_match, digit_multiplier := dm,
      sorted_token := st }

/-- `FuzzyScorer.set_choice`. -/
def FuzzyScorer.set_choice (s : FuzzyScorer) (choice : Option Str) :
    FuzzyScorer :=
  if s.sorted_token then { s with seq1 := some (sortAndToken choice) }
  else { s with seq1 := choice }

/-- `FuzzyScorer.compute_score` as a method: `len(None)` raises `TypeError`. -/
def FuzzyScorer.score (s : FuzzyScorer) : Except PyErr ℤ :=
  match s.seq1, s.seq2 with
  | some a, some b => computeScore s.digit_multiplier a b
  | _, _ => .error .typeError

/-- `FuzzyScorer.real_quick_ratio` as a method. -/
def FuzzyScorer.quickRatio (s : FuzzyScorer) : Except PyErr ℤ :=
  match s.seq1, s.seq2 with
  | some a, some b => .ok (realQuickRatio a b)
  | _, _ => .error .typeError

/-! ## FuzzyFundMatcher (`src/c1_fuzz_matcher.py`) -/

/-- One result tuple `(fname, score, index, flag)` as returned by
`find_cur_best`. -/
abbrev MatchEntry := Str × ℤ × ℤ × Str

instance : DecidableEq MatchEntry := fun a b =>
  inferInstanceAs (Decidable (a = b))

/-- numpy boolean-mask indexing `xs[mask]`.  A mask list built empty has
dtype `float64` in `np.array`, and indexing with a float array raises
`IndexError`; a nonempty mask has dtype `bool` and selects elements. -/
def npMaskIndex {α : Type} (xs : List α) (mask : List Bool) :
    Except PyErr (List α) :=
  match mask with
  | [] => .error .indexError
  | _ =>
    .ok ((xs.zip mask).filterMap (fun p => if p.2 then some p.1 else none))

/-- Integer square root by descent: largest `r ≤ k` with `r * r ≤ n`. -/
def sqrtGo : ℕ → ℕ → ℕ → ℕ
  | 0, r, _ => r
  | fuel + 1, r, n =>
    if (r + 1) * (r + 1) ≤ n then sqrtGo fuel (r + 1) n else r

/-- `int(np.floor(np.sqrt (z)))` for the nonnegative products of scores the
funnel produces; the binary64 square root is exact enough below `2 ^ 52`
that the floor of the true square root is returned. -/
def intSqrt (z : ℤ) : ℤ := (sqrtGo z.toNat 0 z.toNat : ℤ)

/-- Index comparison used to model `np.argsort` ascending: sort by key,
ties by position.  numpy's sort is deterministic; ties are modelled stably
(equal keys keep array order, as numpy's small-array insertion sort does). -/
def idxLe (key : List ℤ) (i j : ℕ) : Prop :=
  key.getD i 0 < key.getD j 0 ∨ (key.getD i 0 = key.getD j 0 ∧ i ≤ j)

instance (key : List ℤ) : DecidableRel (idxLe key) := fun i j =>
  inferInstanceAs
    (Decidable (key.getD i 0 < key.getD j 0 ∨
      (key.getD i 0 = key.getD j 0 ∧ i ≤ j)))

/-- `np.argsort key` (ascending, stable). -/
def argsortAsc (key : List ℤ) : List ℕ :=
  List.insertionSort (idxLe key) (List.range key.length)

/-- The index selection of the finalize step: `np.argsort(...)[::-1]` when
everything is kept, and `np.argpartition(key, -n)[-n:]` re-sorted and
reversed when `len key > n`.  The partition's tie selection is modelled as
the last `n` entries of the stable ascending argsort.  Python's `[-0:]`
slice is the whole array, so `n = 0` also keeps everything. -/
def posTop (key : List ℤ) (top_n : Option ℕ) : List ℕ :=
  match top_n with
  | some n =>
    if n < key.length ∧ n ≠ 0 then ((argsortAsc key).drop (key.length - n)).reverse
    else (argsortAsc key).reverse
  | none => (argsortAsc key).reverse

/-- numpy fancy indexing `xs[idx]` (all indices in range in every use). -/
def takeIdx {α : Type} (xs : List α) (idx : List ℕ) (d : α) : List α :=
  idx.map (fun i => xs.getD i d)

/-- Elementwise `list(zip(*[as, bs, cs, ds]))`. -/
def zip4 {α β γ δ : Type} (as : List α) (bs : List β) (cs : List γ)
    (ds : List δ) : List (α × β × γ × δ) :=
  ((as.zip bs).zip (cs.zip ds)).map (fun p => (p.1.1, p.1.2, p.2.1, p.2.2))

/-- The quick-comparison block of `find_cur_best` (lines 166-193): filter by
`real_quick_ratio ≥ valid_threshold` on the registrant field, then on the
fund field among survivors.  Raises `TypeError` on a `None` query field and
`IndexError` on the float-dtype empty mask; both are caught by the caller. -/
def quickBlock (registrant fund : Option Str) (choices_r choices_f : List Str)
    (match_pos : List ℤ) (T : ℤ) (dm : Frac) :
    Except PyErr (List Str × List Str × List ℤ) := do
  let fus := FuzzyScorer.init registrant none dm false
  let valid ← choices_r.mapM (fun choice => do
    let r ← (fus.set_choice (some choice)).quickRatio
    pure (decide (T ≤ r)))
  let rcr ← npMaskIndex choices_r valid
  let rcf ← npMaskIndex choices_f valid
  let rpos ← npMaskIndex match_pos valid
  let fus2 := FuzzyScorer.init fund none dm false
  let valid2 ← rcf.mapM (fun choice => do
    let r ← (fus2.set_choice (some choice)).quickRatio
    pure (decide (T ≤ r)))
  let rcr2 ← npMaskIndex rcr valid2
  let rcf2 ← npMaskIndex rcf valid2
  let rpos2 ← npMaskIndex rpos valid2
  pure (rcr2, rcf2, rpos2)

/-- The token-rescoring loop shared by both scoring stages (lines 223-231
and 277-285): `100` stays `100`, a raw score below
`half_valid_threshold = int(valid_threshold/3)` is not retried, otherwise
the sorted-token score is computed. -/
def tokenLoop (fusT : FuzzyScorer) (halfT : ℤ) (cs : List Str)
    (raws : List ℤ) : Except PyErr (List ℤ) :=
  (cs.zip raws).mapM (fun p =>
    if p.2 = 100 then pure 100
    else if p.2 < halfT then pure 0
    else (fusT.set_choice (some p.1)).score)

/-- One scoring stage of `find_cur_best` (registrant: lines 204-251, fund:
lines 259-304): exact scores, optional token rescoring with max and
improvement flags, threshold mask, early `None` when no candidate passes,
then mask filtering of all parallel arrays.  Returns the surviving arrays
and the improvement flags (`[]` when `order_irrelevance` is off, matching
the absent Python variable). -/
def scoreStage (query : Option Str) (scored : List Str) (rcr rcf : List Str)
    (rpos : List ℤ) (prevSc : List ℤ) (improvement : List Bool)
    (combine : Bool) (T : ℤ) (dm : Frac) (order_irrelevance : Bool) :
    Except PyErr
      (Option (List Str × List Str × List ℤ × List ℤ × List ℤ × List Bool)) := do
  let fus := FuzzyScorer.init query none dm false
  let rsc ← scored.mapM (fun choice => (fus.set_choice (some choice)).score)
  let halfT := Int.tdiv T 3
  let (rsc2, improvement2) ←
    if order_irrelevance then do
      let fusT := FuzzyScorer.init query none dm true
      let rsc_token ← tokenLoop fusT halfT scored rsc
      let imp := List.zipWith (fun raw tok => decide (raw < tok)) rsc rsc_token
      pure (List.zipWith max rsc rsc_token,
        if combine then List.zipWith or improvement imp else imp)
    else pure (rsc, improvement)
  let valid := rsc2.map (fun e => decide (T ≤ e))
  if valid.any id = false then pure none
  else do
    let rcr' ← npMaskIndex rcr valid
    let rcf' ← npMaskIndex rcf valid
    let rsc' ← npMaskIndex rsc2 valid
    let prevSc' ← if combine then npMaskIndex prevSc valid else pure prevSc
    let rpos' ← npMaskIndex rpos valid
    let improvement' ←
      if order_irrelevance then npMaskIndex improvement2 valid
      else pure improvement2
    pure (some (rcr', rcf', rsc', prevSc', rpos', improvement'))

/-- The finalize step of `find_cur_best` (lines 312-338): geometric-mean
weighted score, top-n selection, labels, positions and `OR` flags. -/
def finalize (rcr rcf : List Str) (rrsc rfsc : List ℤ) (rpos : List ℤ)
    (improvement : List Bool) (top_n : Option ℕ)
    (order_irrelevance : Bool) : List MatchEntry :=
  let scores_weighted := List.zipWith (fun r f => intSqrt (r * f)) rrsc rfsc
  let pos_top := posTop scores_weighted top_n
  let rcr2 := takeIdx rcr pos_top []
  let rcf2 := takeIdx rcf pos_top []
  let picks := List.zipWith (fun r f => r ++ ' ' :: ':' :: ' ' :: f) rcr2 rcf2
  let sw2 := takeIdx scores_weighted pos_top 0
  let rpos2 := takeIdx rpos pos_top 0
  let flag_m : List Str :=
    if order_irrelevance then
      (takeIdx improvement pos_top false).map
        (fun imp => if imp then ['O', 'R'] else [])
    else List.replicate pos_top.length []
  zip4 picks sw2 rpos2 flag_m

/-- `FuzzyFundMatcher.find_cur_best`.  With `quick_comparison` off, the
names `rcr`, `rcf`, `rpos` are only assigned inside the quick-comparison
branch, so line 211 `for choice in rcr` raises `UnboundLocalError` (a
`NameError`), which no `except` clause catches. -/
def findCurBest (registrant fund : Option Str)
    (choices_r choices_f : List Str) (match_pos : List ℤ)
    (top_n : Option ℕ) (T : ℤ) (dm : Frac)
    (quick_comparison order_irrelevance : Bool) :
    Except PyErr (Option (List MatchEntry)) := do
  let pools ←
    if quick_comparison then
      match quickBlock registrant fund choices_r choices_f match_pos T dm with
      | .error .typeError => pure none
      | .error .indexError => pure none
      | .error e => .error e
      | .ok v => pure (some v)
    else .error .nameError
  match pools with
  | none => pure none
  | some (rcr, rcf, rpos) =>
    match scoreStage registrant rcr rcr rcf rpos [] [] false T dm
        order_irrelevance with
    | .error .typeError => pure none
    | .error e => .error e
    | .ok none => pure none
    | .ok (some (rcr2, rcf2, rrsc, _, rpos2, improvement)) =>
      match scoreStage fund rcf2 rcr2 rcf2 rpos2 rrsc improvement true T dm
          order_irrelevance with
      | .error .typeError => pure none
      | .error e => .error e
      | .ok none => pure none
      | .ok (some (rcr3, rcf3, rfsc, rrsc2, rpos3, improvement2)) =>
        pure (some (finalize rcr3 rcf3 rrsc2 rfsc rpos3 improvement2
          top_n order_irrelevance))

/-- Python's `str(x)` on an optional string, as used by the f-string label
of `find_best` (`None` prints as `"None"`). -/
def strOfOpt : Option Str → Str
  | none => ['N', 'o', 'n', 'e']
  | some s => s

/-- `FuzzyFundMatcher.find_best` (lines 96-137): run `find_cur_best` for
every `(registrant, fund)` query, in a multiprocessing pool or a list
comprehension, then attach the query label; a falsy per-query result
(`None` or an empty list) becomes `None`.  `pathos`' `Pool.map` returns
results in input order, so both execution branches are the same map. -/
def findBest (to_matches_r to_matches_f : List (Option Str))
    (choices_r choices_f : List Str) (match_pos : List ℤ)
    (top_n : Option ℕ) (T : ℤ) (dm : Frac)
    (multi_processing quick_comparison order_irrelevance : Bool) :
    Except PyErr (List (Option (Str × List MatchEntry))) := do
  let find_func := fun (rf : Option Str × Option Str) =>
    findCurBest rf.1 rf.2 choices_r choices_f match_pos top_n T dm
      quick_comparison order_irrelevance
  let reg_funds := to_matches_r.zip to_matches_f
  let mats ←
    if multi_processing then reg_funds.mapM find_func
    else reg_funds.mapM find_func
  pure ((mats.zip reg_funds).map (fun p =>
    match p.1 with
    | none => none
    | some [] => none
    | some (x :: xs) =>
      some (strOfOpt p.2.1 ++ ' ' :: ':' :: ' ' :: strOfOpt p.2.2, x :: xs)))

/-! ## preproc_string (`src/f1_preproc_strings.py`)

Embedded with `trim_words = None` and `regex_sub = None` (both source
branches are then skipped); the remaining regexes act on alphanumeric-and-
whitespace material only, where they are plain character transformations.
Unicode-only behavior (non-ASCII case folding, digits and spaces) is out of
scope: the repository's data is ASCII. -/

/-- `s.split(sep=':', maxsplit=1)`, padded with `''` when no colon. -/
def splitColon1 : Str → Str × Str
  | [] => ([], [])
  | c :: cs =>
    if c = ':' then ([], cs)
    else
      let p := splitColon1 cs
      (c :: p.1, p.2)

/-- `re.sub(r'[^a-zA-Z\d\s]+', '', e)`. -/
def stripNonAlnum (s : Str) : Str :=
  s.filter (fun c => c.isAlphanum || isWsChar c)

/-- `re.sub(r'\s*[& ]\s*', ' ', e)` on `&`-free input (the previous
substitution removed every `&`): each maximal whitespace run containing a
space collapses to one space. -/
def collapseGo : ℕ → Str → Str
  | 0, s => s
  | _ + 1, [] => []
  | f + 1, c :: cs =>
    if isWsChar c then
      let run := List.takeWhile isWsChar (c :: cs)
      let rest := List.dropWhile isWsChar (c :: cs)
      (if run.contains ' ' then [' '] else run) ++ collapseGo f rest
    else c :: collapseGo f cs

/-- See `collapseGo`; the fuel is the string length, always sufficient. -/
def collapseSpace (s : Str) : Str := collapseGo s.length s

/-- `e.strip()`. -/
def stripStr (s : Str) : Str :=
  ((s.dropWhile isWsChar).reverse.dropWhile isWsChar).reverse

/-- The return shape of `preproc_string`: a pair of plain scalar strings
when one input was given, otherwise a pair of arrays. -/
inductive PreOut where
  | scalars (r f : Str)
  | arrays (rs fs : List Str)
  deriving DecidableEq, Repr

/-- `preproc_string` (lines 24-74): `None` on an empty input, otherwise
lower-case, split registrant and fund on the first colon, strip
non-alphanumerics, collapse spaces, optionally remove registrant words from
the fund, strip, and return scalars for a single input else arrays. -/
def preprocString (strings : List Str) (rem_reg_from_fund : Bool) :
    Option PreOut :=
  if strings.length = 0 then none
  else
    let lowered := strings.map (fun s => s.map Char.toLower)
    let splits := lowered.map splitColon1
    let str0 := splits.map (fun p => stripNonAlnum p.1)
    let stf0 := splits.map (fun p => stripNonAlnum p.2)
    let str1 := str0.map collapseSpace
    let stf1 := stf0.map collapseSpace
    let stf2 :=
      if rem_reg_from_fund then
        (str1.zip stf1).map (fun p =>
          joinSpace ((splitWs p.2).filter
            (fun w => ¬ (splitWs p.1).contains w)))
      else stf1
    let st_r := str1.map stripStr
    let st_f := stf2.map stripStr
    if st_r.length = 1 then
      some (.scalars (st_r.getD 0 []) (st_f.getD 0 []))
    else some (.arrays st_r st_f)

/-! ## Proof-layer and specification-side definitions

Scan invariants for the aligner's block lists, the claim-side scorer of C1
(`computeScoreFloorSpec` renders the claim's words: the penalty sums over
every position of `a` and of `b` not covered by any block, and the result
is the exact `⌊100·matches/(matches+penalty)⌋`; `computeScoreFloatSpec` is
identical except that the final value is the binary64 evaluation
`int(100*(matches/(matches+penalty)))` that the code performs), and the
claim-side stage score of C5. -/

/-- In-bounds property of a block relative to the search window. -/
def InWindow (alo ahi blo bhi : ℕ) (t : Block) : Prop :=
  alo ≤ t.1 ∧ t.1 + t.2.2 ≤ ahi ∧ blo ≤ t.2.1 ∧ t.2.1 + t.2.2 ≤ bhi

/-- The scan cursor invariant of a block list: block starts are reached in
order, and everything ends inside the window. -/
def Chain : ℕ → ℕ → List Block → ℕ → ℕ → Prop
  | pa, pb, [], ea, eb => pa ≤ ea ∧ pb ≤ eb
  | pa, pb, t :: rest, ea, eb =>
    pa ≤ t.1 ∧ pb ≤ t.2.1 ∧ Chain (t.1 + t.2.2) (t.2.1 + t.2.2) rest ea eb

/-- The scan cursor (`cur_pos_a`) after processing a block list. -/
def endA : ℕ → List Block → ℕ
  | pa, [] => pa
  | _, t :: rest => endA (t.1 + t.2.2) rest

/-- Whether position `p` of the first string is inside some block. -/
def coveredA (bs : List Block) (p : ℕ) : Bool :=
  bs.any (fun t => decide (t.1 ≤ p) && decide (p < t.1 + t.2.2))

/-- Mirror of a block, swapping the two strings. -/
def swapB (t : Block) : Block := (t.2.1, t.1, t.2.2)

/-- Positions of `a` not covered by any block. -/
def uncoveredA (a : Str) (bs : List Block) : List ℕ :=
  (List.range' 0 a.length).filter (fun p => ! coveredA bs p)

/-- Positions of `b` not covered by any block. -/
def uncoveredB (b : Str) (bs : List Block) : List ℕ :=
  (List.range' 0 b.length).filter (fun p => ! coveredA (bs.map swapB) p)

/-- The claim's penalty: weight every uncovered position of both strings. -/
def specPenalty (dm : Frac) (a b : Str) (bs : List Block) : Frac :=
  (penaltyAt dm a (uncoveredA a bs)).add (penaltyAt dm b (uncoveredB b bs))

def computeScoreFloorSpec (dm : Frac) (a b : Str) : Except PyErr ℤ :=
  if a.length = 0 ∧ b.length = 0 then .ok 100
  else if a.length = 0 ∨ b.length = 0 then .ok 0
  else
    let bs := getMatchingBlocks a b
    let m := matchesOf bs
    let t := (Frac.ofInt m).add (specPenalty dm a b bs)
    if t.num = 0 then .error .zeroDivision
    else .ok (((Frac.ofInt (100 * m)).div t).floor)

def computeScoreFloatSpec (dm : Frac) (a b : Str) : Except PyErr ℤ :=
  if a.length = 0 ∧ b.length = 0 then .ok 100
  else if a.length = 0 ∨ b.length = 0 then .ok 0
  else
    let bs := getMatchingBlocks a b
    let m := matchesOf bs
    let t := (Frac.ofInt m).add (specPenalty dm a b bs)
    if t.num = 0 then .error .zeroDivision
    else .ok (fratio100 (Frac.ofInt m) t)

/-- The claim's per-candidate stage score (C5): keep the raw score when it
is `100` or below `⌊valid_threshold/3⌋`, otherwise the maximum of the raw
and the token-sorted score. -/
def stageScoreSpec (query : Option Str) (dm : Frac) (T : ℤ) (c : Str)
    (raw : ℤ) : Except PyErr ℤ :=
  if raw = 100 ∨ raw < T / 3 then .ok raw
  else (((FuzzyScorer.init query none dm true).set_choice (some c)).score).map
    (fun tok => max raw tok)

/-- Boolean-mask selection (the value produced by a successful
`npMaskIndex`). -/
def maskSel {α : Type} (xs : List α) (mask : List Bool) : List α :=
  (xs.zip mask).filterMap (fun p => if p.2 then some p.1 else none)

instance (key : List ℤ) : IsTotal ℕ (idxLe key) := by
  constructor
  intro i j
  unfold idxLe
  rcases lt_trichotomy (key.getD i 0) (key.getD j 0) with h | h | h
  · exact Or.inl (Or.inl h)
  · rcases Nat.le_total i j with hij | hij
    · exact Or.inl (Or.inr ⟨h, hij⟩)
    · exact Or.inr (Or.inr ⟨h.symm, hij⟩)
  · exact Or.inr (Or.inl h)

instance (key : List ℤ) : IsTrans ℕ (idxLe key) := by
  constructor
  intro i j k h1 h2
  unfold idxLe at *
  rcases h1 with h1 | ⟨h1e, h1i⟩ <;> rcases h2 with h2 | ⟨h2e, h2i⟩
  · exact Or.inl (lt_trans h1 h2)
  · exact Or.inl (h2e ▸ h1)
  · exact Or.inl (h1e ▸ h2)
  · exact Or.inr ⟨h1e.trans h2e, le_trans h1i h2i⟩

/-! ## Value lemmas for `Frac` -/

namespace Frac

theorem val_ofInt (n : ℤ) : (ofInt n).val = (n : ℚ) := by
  simp [ofInt, val]

theorem val_ofNat (n : ℕ) : (ofInt (n : ℤ)).val = (n : ℚ) := by
  simp [ofInt, val]

theorem den_ofInt (n : ℤ) : (ofInt n).den = 1 := rfl

theorem den_add {a b : Frac} : (a.add b).den = a.den * b.den := rfl

theorem den_mul {a b : Frac} : (a.mul b).den = a.den * b.den := rfl

theorem den_add_pos {a b : Frac} (ha : 0 < a.den) (hb : 0 < b.den) :
    0 < (a.add b).den := mul_pos ha hb

theorem den_mul_pos {a b : Frac} (ha : 0 < a.den) (hb : 0 < b.den) :
    0 < (a.mul b).den := mul_pos ha hb

theorem den_div_pos {a b : Frac} (ha : 0 < a.den) (hb : b.num ≠ 0) :
    0 < (a.div b).den := by
  unfold div
  rcases lt_trichotomy b.num 0 with h | h | h
  · simp only [if_pos h]
    have : a.den * b.num < 0 := mul_neg_of_pos_of_neg ha h
    omega
  · exact absurd h hb
  · simp only [if_neg (not_lt.mpr h.le)]
    exact mul_pos ha h

theorem val_add {a b : Frac} (ha : a.den ≠ 0) (hb : b.den ≠ 0) :
    (a.add b).val = a.val + b.val := by
  have ha' : (a.den : ℚ) ≠ 0 := Int.cast_ne_zero.mpr ha
  have hb' : (b.den : ℚ) ≠ 0 := Int.cast_ne_zero.mpr hb
  unfold val add
  push_cast
  field_simp

theorem val_mul {a b : Frac} (ha : a.den ≠ 0) (hb : b.den ≠ 0) :
    (a.mul b).val = a.val * b.val := by
  have ha' : (a.den : ℚ) ≠ 0 := Int.cast_ne_zero.mpr ha
  have hb' : (b.den : ℚ) ≠ 0 := Int.cast_ne_zero.mpr hb
  unfold val mul
  push_cast
  field_simp

theorem val_div {a b : Frac} (ha : a.den ≠ 0) (hb : b.den ≠ 0)
    (hn : b.num ≠ 0) : (a.div b).val = a.val / b.val := by
  have ha' : (a.den : ℚ) ≠ 0 := Int.cast_ne_zero.mpr ha
  have hb' : (b.den : ℚ) ≠ 0 := Int.cast_ne_zero.mpr hb
  have hn' : (b.num : ℚ) ≠ 0 := Int.cast_ne_zero.mpr hn
  unfold val div
  rcases lt_or_ge b.num 0 with h | h
  · simp only [if_pos h]
    push_cast
    field_simp
  · simp only [if_neg (not_lt.mpr h)]
    push_cast
    field_simp

theorem le_iff {a b : Frac} (ha : 0 < a.den) (hb : 0 < b.den) :
    a.le b ↔ a.val ≤ b.val := by
  have ha' : (0 : ℚ) < (a.den : ℚ) := by exact_mod_cast ha
  have hb' : (0 : ℚ) < (b.den : ℚ) := by exact_mod_cast hb
  unfold le val
  rw [div_le_div_iff ha' hb']
  constructor
  · intro h; exact_mod_cast h
  · intro h; exact_mod_cast h

theorem lt_iff {a b : Frac} (ha : 0 < a.den) (hb : 0 < b.den) :
    a.lt b ↔ a.val < b.val := by
  have ha' : (0 : ℚ) < (a.den : ℚ) := by exact_mod_cast ha
  have hb' : (0 : ℚ) < (b.den : ℚ) := by exact_mod_cast hb
  unfold lt val
  rw [div_lt_div_iff ha' hb']
  constructor
  · intro h; exact_mod_cast h
  · intro h; exact_mod_cast h

theorem val_nonneg_iff {x : Frac} (hd : 0 < x.den) :
    0 ≤ x.val ↔ 0 ≤ x.num := by
  have hd' : (0 : ℚ) < (x.den : ℚ) := by exact_mod_cast hd
  unfold val
  rw [le_div_iff hd', zero_mul]
  exact ⟨fun h => by exact_mod_cast h, fun h => by exact_mod_cast h⟩

theorem val_pos_iff {x : Frac} (hd : 0 < x.den) :
    0 < x.val ↔ 0 < x.num := by
  have hd' : (0 : ℚ) < (x.den : ℚ) := by exact_mod_cast hd
  unfold val
  rw [lt_div_iff hd', zero_mul]
  exact ⟨fun h => by exact_mod_cast h, fun h => by exact_mod_cast h⟩

theorem val_eq_zero_iff {x : Frac} (hd : 0 < x.den) :
    x.val = 0 ↔ x.num = 0 := by
  have hd' : (x.den : ℚ) ≠ 0 := by
    exact_mod_cast (ne_of_gt hd)
  unfold val
  rw [div_eq_zero_iff]
  simp [hd']

theorem floor_val {x : Frac} (hd : 0 < x.den) : x.floor = ⌊x.val⌋ := by
  unfold floor val
  have h1 : x.den = ((x.den.toNat : ℕ) : ℤ) := by omega
  rw [h1, Int.fdiv_eq_ediv _ (by positivity)]
  rw [show (((x.den.toNat : ℕ) : ℤ) : ℚ) = ((x.den.toNat : ℕ) : ℚ) by push_cast; ring]
  exact (Rat.floor_intCast_div_natCast x.num x.den.toNat).symm

theorem trunc_nonneg_val {x : Frac} (hd : 0 < x.den) (hx : 0 ≤ x.val) :
    x.trunc = ⌊x.val⌋ := by
  have hn : 0 ≤ x.num := (val_nonneg_iff hd).mp hx
  unfold trunc
  rw [Int.tdiv_eq_ediv hn hd.le, ← floor_val hd]
  unfold floor
  rw [Int.fdiv_eq_ediv _ hd.le]

end Frac

/-! ## Lemmas about the rounding model -/

theorem log2F_bounds :
    ∀ f n, 1 ≤ n → n ≤ f → 2 ^ log2F f n ≤ n ∧ n < 2 ^ (log2F f n + 1) := by
  intro f
  induction f with
  | zero => intro n h1 h2; omega
  | succ f ih =>
    intro n h1 h2
    by_cases h : 2 ≤ n
    · have hrec := ih (n / 2) (by omega) (by omega)
      simp only [log2F, if_pos h]
      constructor
      · calc 2 ^ (log2F f (n / 2) + 1) = 2 * 2 ^ log2F f (n / 2) := by ring
        _ ≤ 2 * (n / 2) := by omega
        _ ≤ n := by omega
      · calc n < 2 * (n / 2) + 2 := by omega
        _ ≤ 2 * 2 ^ (log2F f (n / 2) + 1) := by omega
        _ = 2 ^ (log2F f (n / 2) + 1 + 1) := by ring
    · simp only [log2F, if_neg h]
      omega

theorem natLog2_bounds {n : ℕ} (h : 1 ≤ n) :
    2 ^ natLog2 n ≤ n ∧ n < 2 ^ (natLog2 n + 1) :=
  log2F_bounds n n h le_rfl

theorem qpow2_den_pos (e : ℤ) : 0 < (qpow2 e).den := by
  unfold qpow2
  by_cases h : 0 ≤ e <;> simp [h]

theorem qpow2_num_pos (e : ℤ) : 0 < (qpow2 e).num := by
  unfold qpow2
  by_cases h : 0 ≤ e <;> simp [h]

theorem qpow2_val (e : ℤ) : (qpow2 e).val = (2 : ℚ) ^ e := by
  unfold qpow2 Frac.val
  by_cases h : 0 ≤ e
  · simp only [if_pos h]
    push_cast
    rw [div_one, ← zpow_natCast, Int.toNat_of_nonneg h]
  · simp only [if_neg h]
    push_cast
    rw [one_div, ← zpow_natCast, Int.toNat_of_nonneg (by omega : (0:ℤ) ≤ -e),
      ← zpow_neg, neg_neg]

/-- `roundNE` computes round-to-nearest-ties-to-even of the value. -/
theorem roundNE_eq_spec {s : Frac} (hd : 0 < s.den) :
    roundNE s =
      if 1 / 2 < Int.fract s.val then ⌊s.val⌋ + 1
      else if Int.fract s.val < 1 / 2 then ⌊s.val⌋
      else if ⌊s.val⌋ % 2 = 0 then ⌊s.val⌋ else ⌊s.val⌋ + 1 := by
  have hfl : Int.fdiv s.num s.den = ⌊s.val⌋ := Frac.floor_val hd
  have hden : (0 : ℚ) < (s.den : ℚ) := by exact_mod_cast hd
  have hfract : Int.fract s.val =
      ((s.num - ⌊s.val⌋ * s.den : ℤ) : ℚ) / (s.den : ℚ) := by
    rw [Int.fract]
    unfold Frac.val
    push_cast
    field_simp
    ring
  have hgt : (s.den < 2 * (s.num - ⌊s.val⌋ * s.den)) ↔
      (1 / 2 : ℚ) < Int.fract s.val := by
    rw [hfract, lt_div_iff hden]
    constructor
    · intro h
      have : ((s.den : ℚ)) < 2 * ((s.num - ⌊s.val⌋ * s.den : ℤ) : ℚ) := by
        exact_mod_cast h
      linarith
    · intro h
      have : ((s.den : ℚ)) < 2 * ((s.num - ⌊s.val⌋ * s.den : ℤ) : ℚ) := by
        linarith
      exact_mod_cast this
  have hlt : (2 * (s.num - ⌊s.val⌋ * s.den) < s.den) ↔
      (Int.fract s.val < (1 / 2 : ℚ)) := by
    rw [hfract, div_lt_iff hden]
    constructor
    · intro h
      have : 2 * ((s.num - ⌊s.val⌋ * s.den : ℤ) : ℚ) < (s.den : ℚ) := by
        exact_mod_cast h
      linarith
    · intro h
      have : 2 * ((s.num - ⌊s.val⌋ * s.den : ℤ) : ℚ) < (s.den : ℚ) := by
        linarith
      exact_mod_cast this
  unfold roundNE
  rw [hfl]
  by_cases h1 : s.den < 2 * (s.num - ⌊s.val⌋ * s.den)
  · rw [if_pos h1, if_pos (hgt.mp h1)]
  · have hf1 : ¬ (1 / 2 : ℚ) < Int.fract s.val := by rw [← hgt]; exact h1
    rw [if_neg h1, if_neg hf1]
    by_cases h2 : 2 * (s.num - ⌊s.val⌋ * s.den) < s.den
    · rw [if_pos h2, if_pos (hlt.mp h2)]
    · have hf2 : ¬ Int.fract s.val < (1 / 2 : ℚ) := by rw [← hlt]; exact h2
      rw [if_neg h2, if_neg hf2]

theorem roundNE_congr {s t : Frac} (hs : 0 < s.den) (ht : 0 < t.den)
    (h : s.val = t.val) : roundNE s = roundNE t := by
  rw [roundNE_eq_spec hs, roundNE_eq_spec ht, h]

theorem roundNE_dist {s : Frac} (hd : 0 < s.den) :
    |(roundNE s : ℚ) - s.val| ≤ 1 / 2 := by
  rw [roundNE_eq_spec hd]
  have h0 : 0 ≤ Int.fract s.val := Int.fract_nonneg s.val
  have h1 : Int.fract s.val < 1 := Int.fract_lt_one s.val
  have hv : s.val = ⌊s.val⌋ + Int.fract s.val := by
    rw [Int.fract]; ring
  by_cases hgt : (1 / 2 : ℚ) < Int.fract s.val
  · rw [if_pos hgt]
    rw [abs_le]
    push_cast
    constructor <;> linarith
  · rw [if_neg hgt]
    by_cases hlt : Int.fract s.val < (1 / 2 : ℚ)
    · rw [if_pos hlt, abs_le]
      constructor <;> linarith
    · rw [if_neg hlt]
      by_cases hev : ⌊s.val⌋ % 2 = 0
      · rw [if_pos hev, abs_le]
        constructor <;> linarith
      · rw [if_neg hev, abs_le]
        push_cast
        constructor <;> linarith

theorem roundNE_int {s : Frac} (hd : 0 < s.den) (k : ℤ) (hk : s.val = k) :
    roundNE s = k := by
  rw [roundNE_eq_spec hd, hk]
  rw [Int.fract_intCast]
  norm_num

theorem rnd_den_pos {x : Frac} (hd : 0 < x.den) : 0 < (rnd x).den := by
  unfold rnd
  by_cases h : 0 < x.num * x.den
  · simp only [if_pos h]
    by_cases hb : (qpow2 (if (qpow2 ((natLog2 x.num.toNat : ℤ) -
        (natLog2 x.den.toNat : ℤ))).le x then
        (natLog2 x.num.toNat : ℤ) - (natLog2 x.den.toNat : ℤ) else
        (natLog2 x.num.toNat : ℤ) - (natLog2 x.den.toNat : ℤ) - 1)).le x ∧
        x.lt (qpow2 ((if (qpow2 ((natLog2 x.num.toNat : ℤ) -
        (natLog2 x.den.toNat : ℤ))).le x then
        (natLog2 x.num.toNat : ℤ) - (natLog2 x.den.toNat : ℤ) else
        (natLog2 x.num.toNat : ℤ) - (natLog2 x.den.toNat : ℤ) - 1) + 1))
    · rw [if_pos hb]
      exact Frac.den_mul_pos (by norm_num [Frac.ofInt]) (qpow2_den_pos _)
    · rw [if_neg hb]; exact hd
  · simp only [if_neg h]; exact hd

/-- For a positive value the exponent estimate self-corrects: the branch
with the rounded significand is always taken, with the true exponent. -/
theorem rnd_bracket {x : Frac} (hd : 0 < x.den) (hn : 0 < x.num) :
    ∃ e : ℤ, (2 : ℚ) ^ e ≤ x.val ∧ x.val < 2 ^ (e + 1) ∧
      rnd x = (Frac.ofInt (roundNE (x.mul (qpow2 (52 - e))))).mul
        (qpow2 (e - 52)) := by
  have hpos : 0 < x.num * x.den := mul_pos hn hd
  have hnum1 : 1 ≤ x.num.toNat := by omega
  have hden1 : 1 ≤ x.den.toNat := by omega
  obtain ⟨hp1, hp2⟩ := natLog2_bounds hnum1
  obtain ⟨hq1, hq2⟩ := natLog2_bounds hden1
  set p : ℤ := (natLog2 x.num.toNat : ℤ) with hp
  set q : ℤ := (natLog2 x.den.toNat : ℤ) with hq
  have hnum : ((x.num.toNat : ℤ) : ℚ) = (x.num : ℚ) := by
    have : (x.num.toNat : ℤ) = x.num := by omega
    exact_mod_cast congrArg (fun z : ℤ => (z : ℚ)) this
  have hden : ((x.den.toNat : ℤ) : ℚ) = (x.den : ℚ) := by
    have : (x.den.toNat : ℤ) = x.den := by omega
    exact_mod_cast congrArg (fun z : ℤ => (z : ℚ)) this
  have hP1 : (2 : ℚ) ^ p ≤ (x.num : ℚ) := by
    rw [hp, zpow_natCast, ← hnum]
    exact_mod_cast hp1
  have hP2 : (x.num : ℚ) < 2 ^ (p + 1) := by
    rw [hp]
    rw [show ((natLog2 x.num.toNat : ℤ) + 1) = ((natLog2 x.num.toNat + 1 : ℕ) : ℤ) by push_cast; ring]
    rw [zpow_natCast, ← hnum]
    exact_mod_cast hp2
  have hQ1 : (2 : ℚ) ^ q ≤ (x.den : ℚ) := by
    rw [hq, zpow_natCast, ← hden]
    exact_mod_cast hq1
  have hQ2 : (x.den : ℚ) < 2 ^ (q + 1) := by
    rw [hq]
    rw [show ((natLog2 x.den.toNat : ℤ) + 1) = ((natLog2 x.den.toNat + 1 : ℕ) : ℤ) by push_cast; ring]
    rw [zpow_natCast, ← hden]
    exact_mod_cast hq2
  have hdenQ : (0 : ℚ) < (x.den : ℚ) := by exact_mod_cast hd
  have hnumQ : (0 : ℚ) < (x.num : ℚ) := by exact_mod_cast hn
  have hvlow : (2 : ℚ) ^ (p - q - 1) < x.val := by
    unfold Frac.val
    rw [show p - q - 1 = p - (q + 1) by ring, zpow_sub₀ (by norm_num)]
    calc (2 : ℚ) ^ p / 2 ^ (q + 1) < 2 ^ p / (x.den : ℚ) :=
        div_lt_div_of_pos_left (by positivity) hdenQ hQ2
    _ ≤ (x.num : ℚ) / (x.den : ℚ) := (div_le_div_right hdenQ).mpr hP1
  have hvhigh : x.val < (2 : ℚ) ^ (p - q + 1) := by
    unfold Frac.val
    rw [show p - q + 1 = p + 1 - q by ring, zpow_sub₀ (by norm_num)]
    calc (x.num : ℚ) / (x.den : ℚ) < 2 ^ (p + 1) / (x.den : ℚ) :=
        (div_lt_div_right hdenQ).mpr hP2
    _ ≤ 2 ^ (p + 1) / 2 ^ q :=
        div_le_div_of_nonneg_left (by positivity) (by positivity) hQ1
  unfold rnd
  rw [if_pos hpos]
  simp only [← hp, ← hq]
  by_cases hcase : (qpow2 (p - q)).le x
  · have h1 : (2 : ℚ) ^ (p - q) ≤ x.val := by
      have := (Frac.le_iff (qpow2_den_pos (p - q)) hd).mp hcase
      rwa [qpow2_val] at this
    have h2 : x.val < 2 ^ (p - q + 1) := hvhigh
    have hc2 : x.lt (qpow2 ((p - q) + 1)) := by
      rw [Frac.lt_iff hd (qpow2_den_pos _), qpow2_val]
      exact h2
    refine ⟨p - q, h1, h2, ?_⟩
    rw [if_pos hcase, if_pos ⟨hcase, hc2⟩]
  · have hlt : x.val < (2 : ℚ) ^ (p - q) := by
      by_contra hyp
      exact hcase ((Frac.le_iff (qpow2_den_pos (p - q)) hd).mpr
        (by rw [qpow2_val]; linarith))
    have h1 : (2 : ℚ) ^ (p - q - 1) ≤ x.val := hvlow.le
    have h2 : x.val < 2 ^ (p - q - 1 + 1) := by
      rw [show p - q - 1 + 1 = p - q by ring]; exact hlt
    have hc1 : (qpow2 (p - q - 1)).le x := by
      rw [Frac.le_iff (qpow2_den_pos _) hd, qpow2_val]
      exact h1
    have hc2 : x.lt (qpow2 ((p - q - 1) + 1)) := by
      rw [Frac.lt_iff hd (qpow2_den_pos _), qpow2_val]
      exact h2
    refine ⟨p - q - 1, h1, h2, ?_⟩
    rw [if_neg hcase, if_pos ⟨hc1, hc2⟩]

theorem rnd_fallback {x : Frac} (h : ¬ 0 < x.num * x.den) : rnd x = x := by
  unfold rnd
  rw [if_neg h]

theorem zpow_bracket_unique {v : ℚ} {a b : ℤ} (ha1 : (2:ℚ) ^ a ≤ v)
    (ha2 : v < 2 ^ (a + 1)) (hb1 : (2:ℚ) ^ b ≤ v) (hb2 : v < 2 ^ (b + 1)) :
    a = b := by
  by_contra hne
  rcases lt_or_gt_of_ne hne with h | h
  · have : (2:ℚ) ^ (a + 1) ≤ 2 ^ b :=
      zpow_le_zpow_right₀ (by norm_num) (by omega)
    linarith
  · have : (2:ℚ) ^ (b + 1) ≤ 2 ^ a :=
      zpow_le_zpow_right₀ (by norm_num) (by omega)
    linarith

/-- Value of the rounded result in the positive case, in terms of the true
exponent. -/
theorem rnd_val_eq_of_bracket {x : Frac} (hd : 0 < x.den) (hn : 0 < x.num)
    {e : ℤ} (he1 : (2:ℚ) ^ e ≤ x.val) (he2 : x.val < 2 ^ (e + 1))
    (heq : rnd x = (Frac.ofInt (roundNE (x.mul (qpow2 (52 - e))))).mul
      (qpow2 (e - 52))) :
    (rnd x).val = ((roundNE (x.mul (qpow2 (52 - e))) : ℤ) : ℚ) *
      2 ^ (e - 52) ∧
      (x.mul (qpow2 (52 - e))).val = x.val * 2 ^ (52 - e) ∧
      0 < (x.mul (qpow2 (52 - e))).den := by
  refine ⟨?_, ?_, Frac.den_mul_pos hd (qpow2_den_pos _)⟩
  · rw [heq, Frac.val_mul (by norm_num [Frac.ofInt])
      (ne_of_gt (qpow2_den_pos _)), Frac.val_ofInt, qpow2_val]
  · rw [Frac.val_mul (ne_of_gt hd) (ne_of_gt (qpow2_den_pos _)), qpow2_val]

/-- The relative error of one binary64 rounding of a nonnegative value. -/
theorem rnd_val_bound {x : Frac} (hd : 0 < x.den) (hn : 0 ≤ x.num) :
    |(rnd x).val - x.val| ≤ x.val / 2 ^ 53 := by
  rcases eq_or_lt_of_le hn with h0 | hpos
  · have hz : x.val = 0 := by
      unfold Frac.val
      rw [← h0]
      norm_num
    have : rnd x = x := rnd_fallback (by
      intro hc
      have := mul_pos_iff.mp hc
      omega)
    rw [this, hz]
    norm_num
  · obtain ⟨e, he1, he2, heq⟩ := rnd_bracket hd hpos
    obtain ⟨hv, hs, hsd⟩ := rnd_val_eq_of_bracket hd hpos he1 he2 heq
    have hdist := roundNE_dist hsd
    rw [hs] at hdist
    have hppos : (0:ℚ) < 2 ^ (e - 52) := by positivity
    have hone : (2:ℚ) ^ (52 - e) * 2 ^ (e - 52) = 1 := by
      rw [← zpow_add₀ (by norm_num : (2:ℚ) ≠ 0)]
      norm_num
    have key : (rnd x).val - x.val =
        (((roundNE (x.mul (qpow2 (52 - e))) : ℤ) : ℚ) -
          x.val * 2 ^ (52 - e)) * 2 ^ (e - 52) := by
      rw [hv, sub_mul, mul_assoc, hone, mul_one]
    rw [key, abs_mul, abs_of_pos hppos]
    calc |((roundNE (x.mul (qpow2 (52 - e))) : ℤ) : ℚ) -
          x.val * 2 ^ (52 - e)| * 2 ^ (e - 52) ≤ (1/2) * 2 ^ (e - 52) := by
          apply mul_le_mul_of_nonneg_right hdist hppos.le
    _ ≤ x.val / 2 ^ 53 := by
        have h2 : ((2:ℚ) ^ (53:ℕ)) = (2:ℚ) ^ (53:ℤ) := by
          rw [← zpow_natCast]
          norm_num
        have h1 : (1/2 : ℚ) * 2 ^ (e - 52) = 2 ^ e / 2 ^ (53:ℤ) := by
          rw [show (1/2:ℚ) = 2 ^ (-1:ℤ) by norm_num, div_eq_mul_inv,
            ← zpow_neg, ← zpow_add₀ (by norm_num : (2:ℚ) ≠ 0),
            ← zpow_add₀ (by norm_num : (2:ℚ) ≠ 0)]
          congr 1
          ring
        rw [h1, h2]
        exact (div_le_div_right (by positivity)).mpr he1

/-- A nonnegative integer value below `2 ^ 53` is rounded exactly. -/
theorem rnd_int_val {x : Frac} (hd : 0 < x.den) {k : ℤ} (hk : x.val = k)
    (h0 : 0 ≤ k) (h53 : k < 2 ^ 53) : (rnd x).val = k := by
  rcases eq_or_lt_of_le h0 with hz | hpos
  · have hnum : x.num = 0 := (Frac.val_eq_zero_iff hd).mp (by rw [hk, ← hz]; norm_num)
    rw [rnd_fallback (by rw [hnum]; norm_num), hk]
  · have hn : 0 < x.num := by
      rw [← Frac.val_pos_iff hd, hk]
      exact_mod_cast hpos
    obtain ⟨e, he1, he2, heq⟩ := rnd_bracket hd hn
    obtain ⟨hv, hs, hsd⟩ := rnd_val_eq_of_bracket hd hn he1 he2 heq
    have he0 : 0 ≤ e := by
      by_contra hneg
      have h1 : (2:ℚ) ^ (e + 1) ≤ 2 ^ (0:ℤ) :=
        zpow_le_zpow_right₀ (by norm_num) (by omega)
      have h2 : (1:ℚ) ≤ (k:ℚ) := by exact_mod_cast hpos
      rw [hk] at he2
      simp only [zpow_zero] at h1
      linarith
    have he52 : e ≤ 52 := by
      by_contra hgt
      have h1 : (2:ℚ) ^ (53:ℤ) ≤ 2 ^ e :=
        zpow_le_zpow_right₀ (by norm_num) (by omega)
      have h2 : (k:ℚ) < 2 ^ (53:ℤ) := by
        rw [show ((2:ℚ) ^ (53:ℤ)) = ((2 ^ 53 : ℤ) : ℚ) by push_cast; norm_num]
        exact_mod_cast h53
      rw [hk] at he1
      linarith
    have hsint : (x.mul (qpow2 (52 - e))).val = ((k * 2 ^ (52 - e).toNat : ℤ) : ℚ) := by
      rw [hs, hk]
      push_cast
      rw [← zpow_natCast (2:ℚ) (52 - e).toNat, Int.toNat_of_nonneg (by omega)]
    have hrne : roundNE (x.mul (qpow2 (52 - e))) = k * 2 ^ (52 - e).toNat :=
      roundNE_int hsd _ hsint
    rw [hv, hrne]
    push_cast
    rw [← zpow_natCast (2:ℚ) (52 - e).toNat, Int.toNat_of_nonneg (by omega),
      mul_assoc, ← zpow_add₀ (by norm_num : (2:ℚ) ≠ 0)]
    norm_num

/-- `rnd` depends only on the value of its argument. -/
theorem rnd_val_congr {x y : Frac} (hx : 0 < x.den) (hy : 0 < y.den)
    (h : x.val = y.val) : (rnd x).val = (rnd y).val := by
  by_cases hn : 0 < x.num
  · have hny : 0 < y.num := by
      rw [← Frac.val_pos_iff hy, ← h, Frac.val_pos_iff hx]
      exact hn
    obtain ⟨ex, hex1, hex2, heqx⟩ := rnd_bracket hx hn
    obtain ⟨ey, hey1, hey2, heqy⟩ := rnd_bracket hy hny
    rw [h] at hex1 hex2
    have hee : ex = ey := zpow_bracket_unique hex1 hex2 hey1 hey2
    subst hee
    obtain ⟨hvx, hsx, hsdx⟩ := rnd_val_eq_of_bracket hx hn (h ▸ hex1)
      (h ▸ hex2) heqx
    obtain ⟨hvy, hsy, hsdy⟩ := rnd_val_eq_of_bracket hy hny hey1 hey2 heqy
    rw [hvx, hvy]
    have : roundNE (x.mul (qpow2 (52 - ex))) =
        roundNE (y.mul (qpow2 (52 - ex))) := by
      apply roundNE_congr hsdx hsdy
      rw [hsx, hsy, h]
    rw [this]
  · have hny : ¬ 0 < y.num := by
      rw [← Frac.val_pos_iff hy, ← h, Frac.val_pos_iff hx]
      exact hn
    rw [rnd_fallback (by
      intro hc
      rcases mul_pos_iff.mp hc with ⟨h1, _⟩ | ⟨_, h2⟩
      · exact hn h1
      · omega)]
    rw [rnd_fallback (by
      intro hc
      rcases mul_pos_iff.mp hc with ⟨h1, _⟩ | ⟨_, h2⟩
      · exact hny h1
      · omega)]
    exact h

/-- Rounding a nonnegative value stays nonnegative. -/
theorem rnd_val_nonneg {x : Frac} (hd : 0 < x.den) (hn : 0 ≤ x.num) :
    0 ≤ (rnd x).val := by
  have hb := rnd_val_bound hd hn
  have hv : 0 ≤ x.val := (Frac.val_nonneg_iff hd).mpr hn
  rw [abs_le] at hb
  nlinarith [hb.1]

/-- Truncation toward zero depends only on the value, nonnegative case. -/
theorem trunc_nonneg_congr {x y : Frac} (hx : 0 < x.den) (hy : 0 < y.den)
    (hxn : 0 ≤ x.num) (hyn : 0 ≤ y.num) (h : x.val = y.val) :
    x.trunc = y.trunc := by
  rw [Frac.trunc_nonneg_val hx ((Frac.val_nonneg_iff hx).mpr hxn),
    Frac.trunc_nonneg_val hy ((Frac.val_nonneg_iff hy).mpr hyn), h]

/-- Truncation toward zero depends only on the value. -/
theorem trunc_val_congr {x y : Frac} (hx : 0 < x.den) (hy : 0 < y.den)
    (h : x.val = y.val) : x.trunc = y.trunc := by
  by_cases hn : 0 ≤ x.num
  · have hny : 0 ≤ y.num := by
      rw [← Frac.val_nonneg_iff hy, ← h, Frac.val_nonneg_iff hx]
      exact hn
    exact trunc_nonneg_congr hx hy hn hny h
  · push_neg at hn
    have hny : y.num < 0 := by
      by_contra hc
      push_neg at hc
      have := (Frac.val_nonneg_iff hy).mpr hc
      rw [← h, Frac.val_nonneg_iff hx] at this
      omega
    have hkey : ∀ z : Frac, z.num < 0 →
        z.trunc = -(Frac.mk (-z.num) z.den).trunc := by
      intro z hzn
      unfold Frac.trunc
      simp [Int.neg_tdiv]
    rw [hkey x hn, hkey y hny]
    congr 1
    apply trunc_nonneg_congr (x := Frac.mk (-x.num) x.den)
      (y := Frac.mk (-y.num) y.den) hx hy (by simp; omega) (by simp; omega)
    unfold Frac.val at h ⊢
    push_cast
    rw [neg_div, neg_div, h]

/-- Truncating a fraction holding a nonnegative integer value. -/
theorem trunc_int_val {x : Frac} (hd : 0 < x.den) {k : ℤ} (hk : x.val = k)
    (h0 : 0 ≤ k) : x.trunc = k := by
  rw [Frac.trunc_nonneg_val hd (by rw [hk]; exact_mod_cast h0), hk,
    Int.floor_intCast]

/-! ## Well-formedness of the alignment -/

theorem commonRun_le_left (xs ys : List Char) :
    commonRun xs ys ≤ xs.length := by
  induction xs generalizing ys with
  | nil => cases ys <;> simp [commonRun]
  | cons c cs ih =>
    cases ys with
    | nil => simp [commonRun]
    | cons d ds =>
      by_cases h : c = d <;> simp [commonRun, h]
      exact ih ds

theorem commonRun_self (xs : List Char) : commonRun xs xs = xs.length := by
  induction xs with
  | nil => simp [commonRun]
  | cons c cs ih => simp [commonRun, ih]

theorem runAt_le (a b : Str) (ahi bhi i j : ℕ) :
    runAt a b ahi bhi i j ≤ ahi - i := by
  unfold runAt
  calc commonRun ((a.drop i).take (ahi - i)) ((b.drop j).take (bhi - j)) ≤
      ((a.drop i).take (ahi - i)).length := commonRun_le_left _ _
  _ ≤ ahi - i := by simp [List.length_take]

theorem commonRun_le_right (xs ys : List Char) :
    commonRun xs ys ≤ ys.length := by
  induction xs generalizing ys with
  | nil => cases ys <;> simp [commonRun]
  | cons c cs ih =>
    cases ys with
    | nil => simp [commonRun]
    | cons d ds =>
      by_cases h : c = d <;> simp [commonRun, h]
      exact ih ds

theorem runAt_le_right (a b : Str) (ahi bhi i j : ℕ) :
    runAt a b ahi bhi i j ≤ bhi - j := by
  unfold runAt
  calc commonRun ((a.drop i).take (ahi - i)) ((b.drop j).take (bhi - j)) ≤
      ((b.drop j).take (bhi - j)).length := commonRun_le_right _ _
  _ ≤ bhi - j := by simp [List.length_take]

theorem lmGo_inWindow (a b : Str) (alo ahi blo bhi : ℕ) :
    ∀ (l : List (ℕ × ℕ)) (best : Block),
      InWindow alo ahi blo bhi best →
      (∀ ij ∈ l, alo ≤ ij.1 ∧ ij.1 < ahi ∧ blo ≤ ij.2 ∧ ij.2 < bhi) →
      InWindow alo ahi blo bhi (lmGo a b ahi bhi l best) := by
  intro l
  induction l with
  | nil => intro best hb _; exact hb
  | cons ij rest ih =>
    intro best hb hl
    unfold lmGo
    obtain ⟨h1, h2, h3, h4⟩ := hl ij (List.mem_cons_self _ _)
    by_cases hk : best.2.2 < runAt a b ahi bhi ij.1 ij.2
    · simp only [if_pos hk]
      apply ih
      · have hle := runAt_le a b ahi bhi ij.1 ij.2
        have hler := runAt_le_right a b ahi bhi ij.1 ij.2
        refine ⟨h1, ?_, h3, ?_⟩ <;> dsimp only [InWindow] <;> omega
      · intro x hx; exact hl x (List.mem_cons_of_mem _ hx)
    · simp only [if_neg hk]
      apply ih _ hb
      intro x hx; exact hl x (List.mem_cons_of_mem _ hx)

theorem gridOf_mem {alo ahi blo bhi : ℕ} {ij : ℕ × ℕ}
    (h : ij ∈ gridOf alo ahi blo bhi) :
    alo ≤ ij.1 ∧ ij.1 < ahi ∧ blo ≤ ij.2 ∧ ij.2 < bhi := by
  unfold gridOf at h
  rw [List.mem_flatMap] at h
  obtain ⟨i, hi, hij⟩ := h
  rw [List.mem_map] at hij
  obtain ⟨j, hj, rfl⟩ := hij
  rw [List.mem_range'_1] at hi hj
  exact ⟨hi.1, by omega, hj.1, by omega⟩

theorem longestMatch_inWindow (a b : Str) {alo ahi blo bhi : ℕ}
    (ha : alo ≤ ahi) (hb : blo ≤ bhi) :
    InWindow alo ahi blo bhi (longestMatch a b alo ahi blo bhi) := by
  unfold longestMatch
  apply lmGo_inWindow
  · exact ⟨le_rfl, by simpa using ha, le_rfl, by simpa using hb⟩
  · intro ij hij; exact gridOf_mem hij

theorem chain_mono {pa pb pa' pb' ea eb : ℕ} {bs : List Block}
    (h : Chain pa pb bs ea eb) (h1 : pa' ≤ pa) (h2 : pb' ≤ pb) :
    Chain pa' pb' bs ea eb := by
  cases bs with
  | nil => exact ⟨le_trans h1 h.1, le_trans h2 h.2⟩
  | cons t rest => exact ⟨le_trans h1 h.1, le_trans h2 h.2.1, h.2.2⟩

theorem chain_append {pa pb m n ea eb : ℕ} {xs ys : List Block}
    (hx : Chain pa pb xs m n) (hy : Chain m n ys ea eb) :
    Chain pa pb (xs ++ ys) ea eb := by
  induction xs generalizing pa pb with
  | nil => exact chain_mono hy hx.1 hx.2
  | cons t rest ih =>
    exact ⟨hx.1, hx.2.1, ih hx.2.2⟩

theorem mbAux_chain (a b : Str) :
    ∀ (fuel alo ahi blo bhi : ℕ), alo ≤ ahi → blo ≤ bhi →
      Chain alo blo (mbAux a b fuel alo ahi blo bhi) ahi bhi := by
  intro fuel
  induction fuel with
  | zero => intro alo ahi blo bhi h1 h2; exact ⟨h1, h2⟩
  | succ f ih =>
    intro alo ahi blo bhi h1 h2
    obtain ⟨w1, w2, w3, w4⟩ := longestMatch_inWindow a b h1 h2
    simp only [mbAux]
    by_cases hk : (longestMatch a b alo ahi blo bhi).2.2 = 0
    · simp only [if_pos hk]
      exact ⟨h1, h2⟩
    · simp only [if_neg hk]
      rw [List.append_assoc]
      apply chain_append (m := (longestMatch a b alo ahi blo bhi).1)
        (n := (longestMatch a b alo ahi blo bhi).2.1)
      · exact ih alo _ blo _ w1 w3
      · exact ⟨le_rfl, le_rfl, ih _ ahi _ bhi w2 w4⟩

theorem diffB_eq_diffA (bs : List Block) : ∀ pb,
    diffB pb bs = diffA pb (bs.map swapB) := by
  induction bs with
  | nil => intro pb; rfl
  | cons t rest ih =>
    intro pb
    show List.range' pb (t.2.1 - pb) ++ diffB (t.2.1 + t.2.2) rest = _
    rw [ih]
    rfl

theorem chain_swap {pa pb ea eb : ℕ} {bs : List Block}
    (h : Chain pa pb bs ea eb) : Chain pb pa (bs.map swapB) eb ea := by
  induction bs generalizing pa pb with
  | nil => exact ⟨h.2, h.1⟩
  | cons t rest ih => exact ⟨h.2.1, h.1, ih h.2.2⟩

theorem matchesOf_swap (bs : List Block) :
    matchesOf (bs.map swapB) = matchesOf bs := by
  induction bs with
  | nil => rfl
  | cons t rest ih =>
    show t.2.2 + matchesOf (rest.map swapB) = t.2.2 + matchesOf rest
    rw [ih]

theorem endA_ge {bs : List Block} : ∀ {pa pb ea eb : ℕ},
    Chain pa pb bs ea eb → pa ≤ endA pa bs := by
  induction bs with
  | nil => intro pa pb ea eb _; exact le_rfl
  | cons t rest ih =>
    intro pa pb ea eb h
    calc pa ≤ t.1 := h.1
    _ ≤ t.1 + t.2.2 := Nat.le_add_right _ _
    _ ≤ endA (t.1 + t.2.2) rest := ih h.2.2

theorem endA_le {bs : List Block} : ∀ {pa pb ea eb : ℕ},
    Chain pa pb bs ea eb → endA pa bs ≤ ea := by
  induction bs with
  | nil => intro pa pb ea eb h; exact h.1
  | cons t rest ih => intro pa pb ea eb h; exact ih h.2.2

theorem diffA_length {bs : List Block} : ∀ {pa pb ea eb : ℕ},
    Chain pa pb bs ea eb →
    (diffA pa bs).length + matchesOf bs = endA pa bs - pa := by
  induction bs with
  | nil => intro pa pb ea eb _; simp [diffA, matchesOf, endA]
  | cons t rest ih =>
    intro pa pb ea eb h
    obtain ⟨h1, _, hc⟩ := h
    have hrec := ih hc
    have hge : t.1 + t.2.2 ≤ endA (t.1 + t.2.2) rest := endA_ge hc
    show (List.range' pa (t.1 - pa) ++ diffA (t.1 + t.2.2) rest).length +
      (t.2.2 + matchesOf rest) = endA (t.1 + t.2.2) rest - pa
    rw [List.length_append, List.length_range']
    omega

theorem chain_starts_ge {bs : List Block} : ∀ {pa pb ea eb : ℕ},
    Chain pa pb bs ea eb → ∀ t ∈ bs, pa ≤ t.1 := by
  induction bs with
  | nil => intro pa pb ea eb _ t ht; cases ht
  | cons u rest ih =>
    intro pa pb ea eb h t ht
    rcases List.mem_cons.mp ht with rfl | hmem
    · exact h.1
    · calc pa ≤ u.1 := h.1
      _ ≤ u.1 + u.2.2 := Nat.le_add_right _ _
      _ ≤ t.1 := (ih h.2.2 t hmem)

/-- Splitting a contiguous range at a block. -/
theorem range'_split3 (pa x y E : ℕ) (h1 : pa ≤ x) (h2 : x + y ≤ E) :
    List.range' pa (E - pa) =
      List.range' pa (x - pa) ++ List.range' x y ++
        List.range' (x + y) (E - (x + y)) := by
  have e1 : List.range' pa (x - pa) ++ List.range' (pa + (x - pa)) y =
      List.range' pa (y + (x - pa)) := List.range'_append_1 pa (x - pa) y
  rw [show pa + (x - pa) = x from by omega] at e1
  have e2 : List.range' pa (y + (x - pa)) ++
      List.range' (pa + (y + (x - pa))) (E - (x + y)) =
      List.range' pa ((E - (x + y)) + (y + (x - pa))) :=
    List.range'_append_1 pa (y + (x - pa)) (E - (x + y))
  rw [show pa + (y + (x - pa)) = x + y from by omega] at e2
  calc List.range' pa (E - pa) =
      List.range' pa ((E - (x + y)) + (y + (x - pa))) := by congr 1; omega
  _ = List.range' pa (y + (x - pa)) ++
      List.range' (x + y) (E - (x + y)) := e2.symm
  _ = (List.range' pa (x - pa) ++ List.range' x y) ++
      List.range' (x + y) (E - (x + y)) := by rw [← e1]

/-- The scan of `compute_score` collects exactly the positions of the first
string that no block covers. -/
theorem diffA_eq_filter {bs : List Block} : ∀ {pa pb ea eb : ℕ},
    Chain pa pb bs ea eb →
    diffA pa bs = (List.range' pa (endA pa bs - pa)).filter
      (fun p => ! coveredA bs p) := by
  induction bs with
  | nil =>
    intro pa pb ea eb _
    simp [diffA, endA]
  | cons t rest ih =>
    intro pa pb ea eb h
    obtain ⟨h1, hmid, hc⟩ := h
    have hge : t.1 + t.2.2 ≤ endA (t.1 + t.2.2) rest := endA_ge hc
    show List.range' pa (t.1 - pa) ++ diffA (t.1 + t.2.2) rest = _
    rw [show endA pa (t :: rest) = endA (t.1 + t.2.2) rest from rfl,
      range'_split3 pa t.1 t.2.2 _ h1 hge, List.filter_append,
      List.filter_append]
    have hpart1 : (List.range' pa (t.1 - pa)).filter
        (fun p => ! coveredA (t :: rest) p) = List.range' pa (t.1 - pa) := by
      rw [List.filter_eq_self]
      intro p hp
      rw [List.mem_range'_1] at hp
      have hplt : p < t.1 := by omega
      rw [Bool.not_eq_true']
      unfold coveredA
      rw [List.any_eq_false]
      intro u hu
      simp only [Bool.and_eq_true, decide_eq_true_eq, not_and]
      intro hup
      rcases List.mem_cons.mp hu with rfl | hmem
      · omega
      · have := chain_starts_ge hc u hmem
        omega
    have hpart2 : (List.range' t.1 t.2.2).filter
        (fun p => ! coveredA (t :: rest) p) = [] := by
      rw [List.filter_eq_nil_iff]
      intro p hp
      rw [List.mem_range'_1] at hp
      simp only [Bool.not_eq_true', Bool.not_eq_false]
      unfold coveredA
      rw [List.any_cons]
      have hhead : (decide (t.1 ≤ p) && decide (p < t.1 + t.2.2)) = true := by
        simp only [Bool.and_eq_true, decide_eq_true_eq]
        omega
      rw [hhead, Bool.true_or]
    have hpart3 : (List.range' (t.1 + t.2.2)
        (endA (t.1 + t.2.2) rest - (t.1 + t.2.2))).filter
          (fun p => ! coveredA (t :: rest) p) =
        (List.range' (t.1 + t.2.2)
          (endA (t.1 + t.2.2) rest - (t.1 + t.2.2))).filter
          (fun p => ! coveredA rest p) := by
      apply List.filter_congr
      intro p hp
      rw [List.mem_range'_1] at hp
      show (! coveredA (t :: rest) p) = (! coveredA rest p)
      unfold coveredA
      rw [List.any_cons]
      have hhead : (decide (t.1 ≤ p) && decide (p < t.1 + t.2.2)) = false := by
        simp only [Bool.and_eq_false_iff, decide_eq_false_iff_not]
        omega
      rw [hhead, Bool.false_or]
    rw [hpart1, hpart2, hpart3, ← ih hc]
    simp

theorem endA_append (xs : List Block) : ∀ (pa : ℕ) (ys : List Block),
    endA pa (xs ++ ys) = endA (endA pa xs) ys := by
  induction xs with
  | nil => intro pa ys; rfl
  | cons t rest ih => intro pa ys; exact ih _ ys

/-! ## The full block list of `get_matching_blocks` -/

theorem chain_full (a b : Str) :
    Chain 0 0 (getMatchingBlocks a b) a.length b.length := by
  unfold getMatchingBlocks
  apply chain_append (m := a.length) (n := b.length)
  · exact mbAux_chain a b _ 0 a.length 0 b.length (Nat.zero_le _) (Nat.zero_le _)
  · exact ⟨le_rfl, le_rfl, ⟨by dsimp only; omega, by dsimp only; omega⟩⟩

theorem endA_full (a b : Str) :
    endA 0 (getMatchingBlocks a b) = a.length := by
  unfold getMatchingBlocks
  rw [endA_append]
  rfl

theorem endA_full_swap (a b : Str) :
    endA 0 ((getMatchingBlocks a b).map swapB) = b.length := by
  unfold getMatchingBlocks
  rw [List.map_append, endA_append]
  rfl

theorem diffA_full_length (a b : Str) :
    (diffA 0 (getMatchingBlocks a b)).length +
      matchesOf (getMatchingBlocks a b) = a.length := by
  have h := diffA_length (chain_full a b)
  rwa [endA_full, Nat.sub_zero] at h

theorem diffB_full_length (a b : Str) :
    (diffB 0 (getMatchingBlocks a b)).length +
      matchesOf (getMatchingBlocks a b) = b.length := by
  have h := diffA_length (chain_swap (chain_full a b))
  rw [endA_full_swap, Nat.sub_zero, matchesOf_swap] at h
  rwa [diffB_eq_diffA]

theorem matches_le_left (a b : Str) :
    matchesOf (getMatchingBlocks a b) ≤ a.length := by
  have := diffA_full_length a b
  omega

theorem matches_le_right (a b : Str) :
    matchesOf (getMatchingBlocks a b) ≤ b.length := by
  have := diffB_full_length a b
  omega

/-! ## Penalty values -/

theorem charWeight_den_pos {dm : Frac} (hd : 0 < dm.den) (c : Char) :
    0 < (charWeight dm c).den := by
  unfold charWeight
  split
  · exact hd
  · norm_num [Frac.ofInt]

theorem charWeight_val_ge_one {dm : Frac} (hd : 0 < dm.den)
    (h1 : 1 ≤ dm.val) (c : Char) : 1 ≤ (charWeight dm c).val := by
  unfold charWeight
  split
  · exact h1
  · rw [Frac.val_ofInt]
    norm_num

theorem charWeight_val_nonneg {dm : Frac} (hd : 0 < dm.den)
    (h0 : 0 ≤ dm.val) (c : Char) : 0 ≤ (charWeight dm c).val := by
  unfold charWeight
  split
  · exact h0
  · rw [Frac.val_ofInt]
    norm_num

theorem foldl_add_den_pos (l : List Frac) : ∀ (z : Frac), 0 < z.den →
    (∀ x ∈ l, 0 < x.den) → 0 < (l.foldl Frac.add z).den := by
  induction l with
  | nil => intro z hz _; exact hz
  | cons x xs ih =>
    intro z hz hl
    exact ih _ (Frac.den_add_pos hz (hl x (List.mem_cons_self _ _)))
      (fun y hy => hl y (List.mem_cons_of_mem _ hy))

theorem foldl_add_val (l : List Frac) : ∀ (z : Frac), 0 < z.den →
    (∀ x ∈ l, 0 < x.den) →
    (l.foldl Frac.add z).val = z.val + (l.map Frac.val).sum := by
  induction l with
  | nil => intro z _ _; simp
  | cons x xs ih =>
    intro z hz hl
    have hx := hl x (List.mem_cons_self _ _)
    rw [List.foldl_cons, ih _ (Frac.den_add_pos hz hx)
      (fun y hy => hl y (List.mem_cons_of_mem _ hy)),
      Frac.val_add (ne_of_gt hz) (ne_of_gt hx)]
    simp
    ring

theorem penaltyAt_den_pos {dm : Frac} (hd : 0 < dm.den) (s : Str)
    (ps : List ℕ) : 0 < (penaltyAt dm s ps).den := by
  apply foldl_add_den_pos
  · norm_num [Frac.ofInt]
  · intro x hx
    rw [List.mem_map] at hx
    obtain ⟨i, _, rfl⟩ := hx
    exact charWeight_den_pos hd _

theorem penaltyAt_val {dm : Frac} (hd : 0 < dm.den) (s : Str) (ps : List ℕ) :
    (penaltyAt dm s ps).val =
      ((ps.map (fun i => (charWeight dm (s.getD i ' ')).val)).sum) := by
  unfold penaltyAt
  rw [foldl_add_val _ _ (by norm_num [Frac.ofInt]) (by
    intro x hx
    rw [List.mem_map] at hx
    obtain ⟨i, _, rfl⟩ := hx
    exact charWeight_den_pos hd _)]
  rw [Frac.val_ofInt, List.map_map]
  rw [Int.cast_zero, zero_add]
  rfl

theorem sum_ge_length {l : List ℚ} (h : ∀ x ∈ l, 1 ≤ x) :
    (l.length : ℚ) ≤ l.sum := by
  induction l with
  | nil => simp
  | cons x xs ih =>
    have h1 := h x (List.mem_cons_self _ _)
    have h2 := ih (fun y hy => h y (List.mem_cons_of_mem _ hy))
    simp only [List.length_cons, List.sum_cons]
    push_cast
    linarith

theorem penaltyAt_val_ge {dm : Frac} (hd : 0 < dm.den) (h1 : 1 ≤ dm.val)
    (s : Str) (ps : List ℕ) :
    (ps.length : ℚ) ≤ (penaltyAt dm s ps).val := by
  rw [penaltyAt_val hd]
  have := sum_ge_length (l := ps.map (fun i => (charWeight dm (s.getD i ' ')).val))
    (by
      intro x hx
      rw [List.mem_map] at hx
      obtain ⟨i, _, rfl⟩ := hx
      exact charWeight_val_ge_one hd h1 _)
  simpa using this

theorem penaltyAt_val_nonneg {dm : Frac} (hd : 0 < dm.den)
    (h0 : 0 ≤ dm.val) (s : Str) (ps : List ℕ) :
    0 ≤ (penaltyAt dm s ps).val := by
  rw [penaltyAt_val hd]
  apply List.sum_nonneg
  intro x hx
  rw [List.mem_map] at hx
  obtain ⟨i, _, rfl⟩ := hx
  exact charWeight_val_nonneg hd h0 _

/-! ## Alignment of a string with itself -/

theorem lmGo_stays (a b : Str) (ahi bhi : ℕ) :
    ∀ (l : List (ℕ × ℕ)) (best : Block),
      (∀ ij ∈ l, runAt a b ahi bhi ij.1 ij.2 ≤ best.2.2) →
      lmGo a b ahi bhi l best = best := by
  intro l
  induction l with
  | nil => intro best _; rfl
  | cons ij rest ih =>
    intro best hl
    unfold lmGo
    rw [if_neg (by
      have := hl ij (List.mem_cons_self _ _)
      omega)]
    exact ih best (fun x hx => hl x (List.mem_cons_of_mem _ hx))

theorem runAt_full_self (a : Str) :
    runAt a a a.length a.length 0 0 = a.length := by
  unfold runAt
  rw [List.drop_zero, Nat.sub_zero, List.take_length]
  exact commonRun_self a

theorem grid_head {na nb : ℕ} (ha : 0 < na) (hb : 0 < nb) :
    ∃ rest, gridOf 0 na 0 nb = (0, 0) :: rest := by
  obtain ⟨m, rfl⟩ := Nat.exists_eq_succ_of_ne_zero (by omega : na ≠ 0)
  obtain ⟨k, rfl⟩ := Nat.exists_eq_succ_of_ne_zero (by omega : nb ≠ 0)
  unfold gridOf
  rw [Nat.sub_zero, Nat.sub_zero, List.range'_succ, List.flatMap_cons,
    List.range'_succ, List.map_cons, List.cons_append]
  exact ⟨_, rfl⟩

theorem longestMatch_self (a : Str) (ha : a ≠ []) :
    longestMatch a a 0 a.length 0 a.length = (0, 0, a.length) := by
  have hlen : 0 < a.length := List.length_pos.mpr ha
  obtain ⟨rest, hrest⟩ := grid_head hlen hlen
  unfold longestMatch
  rw [hrest]
  unfold lmGo
  rw [if_pos (by rw [runAt_full_self]; simpa using hlen)]
  rw [runAt_full_self]
  apply lmGo_stays
  intro ij _
  have := runAt_le a a a.length a.length ij.1 ij.2
  dsimp only
  omega

theorem mbAux_degenerate (a b : Str) (fuel alo blo bhi : ℕ) :
    mbAux a b fuel alo alo blo bhi = [] := by
  cases fuel with
  | zero => rfl
  | succ f =>
    have hlm : longestMatch a b alo alo blo bhi = (alo, blo, 0) := by
      unfold longestMatch gridOf
      rw [Nat.sub_self]
      rfl
    simp only [mbAux, hlm]
    simp

theorem getMatchingBlocks_self (a : Str) (ha : a ≠ []) :
    getMatchingBlocks a a =
      [(0, 0, a.length), (a.length, a.length, 0)] := by
  have hlen : 0 < a.length := List.length_pos.mpr ha
  unfold getMatchingBlocks
  have : mbAux a a (a.length + 1) 0 a.length 0 a.length =
      [(0, 0, a.length)] := by
    simp only [mbAux, longestMatch_self a ha]
    rw [if_neg (by omega)]
    simp only [Nat.zero_add]
    rw [mbAux_degenerate a a (List.length a) (List.length a) (List.length a)
      (List.length a), mbAux_degenerate a a (List.length a) 0 0 0]
    rfl
  rw [this]
  rfl

/-- `compute_score(a, a) = 100` for every string and every multiplier. -/
theorem computeScore_self (dm : Frac) (a : Str) :
    computeScore dm a a = .ok 100 := by
  by_cases ha : a = []
  · subst ha
    rfl
  · have hlen : 0 < a.length := List.length_pos.mpr ha
    unfold computeScore
    rw [if_neg (by omega), if_neg (by push_neg; omega)]
    simp only [getMatchingBlocks_self a ha]
    have hm : matchesOf [(0, 0, a.length), (a.length, a.length, 0)] =
        a.length := by
      simp [matchesOf]
    have hda : diffA 0 [(0, 0, a.length), (a.length, a.length, 0)] = [] := by
      simp [diffA]
    have hdb : diffB 0 [(0, 0, a.length), (a.length, a.length, 0)] = [] := by
      simp [diffB]
    simp only [hm, hda, hdb]
    have hpen : penaltyAt dm a [] = Frac.ofInt 0 := rfl
    simp only [hpen]
    have ht : (Frac.ofInt (a.length : ℤ)).add
        ((Frac.ofInt 0).add (Frac.ofInt 0)) =
        Frac.mk (a.length : ℤ) 1 := by
      unfold Frac.ofInt Frac.add
      norm_num
    rw [ht]
    rw [if_neg (by dsimp only; omega)]
    congr 1
    unfold fratio100
    have hdiv : (Frac.ofInt (a.length : ℤ)).div (Frac.mk (a.length : ℤ) 1) =
        Frac.mk ((a.length : ℤ) * 1) (1 * (a.length : ℤ)) := by
      unfold Frac.div Frac.ofInt
      rw [if_neg (by dsimp only; omega)]
    rw [hdiv]
    have hdden : (0:ℤ) < ((Frac.mk ((a.length : ℤ) * 1)
        (1 * (a.length : ℤ))).den) := by
      dsimp only
      omega
    have hdval : (Frac.mk ((a.length : ℤ) * 1) (1 * (a.length : ℤ))).val =
        ((1 : ℤ) : ℚ) := by
      unfold Frac.val
      dsimp only
      rw [mul_one, one_mul]
      push_cast
      rw [div_self (by exact_mod_cast (by omega : (a.length : ℤ) ≠ 0))]
    have hr1 : (rnd (Frac.mk ((a.length : ℤ) * 1)
        (1 * (a.length : ℤ)))).val = ((1 : ℤ) : ℚ) :=
      rnd_int_val hdden hdval (by norm_num) (by norm_num)
    have hr1d := rnd_den_pos hdden
    have hmden : (0:ℤ) < ((Frac.ofInt 100).mul
        (rnd (Frac.mk ((a.length : ℤ) * 1) (1 * (a.length : ℤ))))).den :=
      Frac.den_mul_pos (by norm_num [Frac.ofInt]) hr1d
    have hmval : ((Frac.ofInt 100).mul
        (rnd (Frac.mk ((a.length : ℤ) * 1) (1 * (a.length : ℤ))))).val =
        ((100 : ℤ) : ℚ) := by
      rw [Frac.val_mul (by norm_num [Frac.ofInt]) (ne_of_gt hr1d),
        Frac.val_ofInt, hr1]
      norm_num
    have hr2 : (rnd ((Frac.ofInt 100).mul
        (rnd (Frac.mk ((a.length : ℤ) * 1) (1 * (a.length : ℤ)))))).val =
        ((100 : ℤ) : ℚ) :=
      rnd_int_val hmden hmval (by norm_num) (by norm_num)
    exact trunc_int_val (rnd_den_pos hmden) hr2 (by norm_num)

/-! ## Specification-side scorer (claim C1) -/

/-- The scanned unmatched positions are exactly the uncovered positions. -/
theorem diffA_full_eq (a b : Str) :
    diffA 0 (getMatchingBlocks a b) = uncoveredA a (getMatchingBlocks a b) := by
  have h := diffA_eq_filter (chain_full a b)
  rwa [endA_full, Nat.sub_zero] at h

theorem diffB_full_eq (a b : Str) :
    diffB 0 (getMatchingBlocks a b) = uncoveredB b (getMatchingBlocks a b) := by
  have h := diffA_eq_filter (chain_swap (chain_full a b))
  rw [endA_full_swap, Nat.sub_zero] at h
  rw [diffB_eq_diffA]
  exact h

/-- C1, amended: `compute_score` follows the claim's structure exactly —
matches are the total block length and the penalty weights every position
of either string not covered by any block — but the final value is the
binary64 evaluation of `int(100*(matches/(matches+penalty)))`, not the
exact floor. -/
theorem c1_amended_float_structure (dm : Frac) (a b : Str) :
    computeScore dm a b = computeScoreFloatSpec dm a b := by
  unfold computeScore computeScoreFloatSpec specPenalty
  simp only [diffA_full_eq, diffB_full_eq]

set_option maxRecDepth 100000 in
/-- C1, counterexample: at `a = "m"*29 ++ "123"`, `b = "m"*29 ++ "4567"`
with `digit_multiplier = 3`, matches = 29 and penalty = 21, and the code
returns `57` where the claimed exact floor is `⌊100·29/50⌋ = 58` — the
binary64 double rounding of `29/50` falls below `0.58`. -/
theorem c1_counterexample :
    computeScore (.ofInt 3) (List.replicate 29 'm' ++ "123".toList)
      (List.replicate 29 'm' ++ "4567".toList) = .ok 57 ∧
    computeScoreFloorSpec (.ofInt 3) (List.replicate 29 'm' ++ "123".toList)
      (List.replicate 29 'm' ++ "4567".toList) = .ok 58 := by
  constructor
  · decide
  · decide

/-- C3: with `quick_comparison` disabled, `rcr`/`rcf`/`rpos` are never
assigned and `find_cur_best` raises `UnboundLocalError` for every input;
evaluated here at the failing input of the report. -/
theorem c3_quick_off_raises (registrant fund : Option Str)
    (choices_r choices_f : List Str) (match_pos : List ℤ)
    (top_n : Option ℕ) (T : ℤ) (dm : Frac) (order_irrelevance : Bool) :
    findCurBest registrant fund choices_r choices_f match_pos top_n T dm
      false order_irrelevance = .error .nameError := rfl

/-- C4, counterexample: constructing a scorer with `digit_multiplier = 0`
(≤ 0) raises nothing, and scoring proceeds and returns a value — there is
no `InvalidConfig` check anywhere. -/
theorem c4_counterexample :
    (FuzzyScorer.init (some "1".toList) (some "1".toList)
      (.ofInt 0) false).score = .ok 100 ∧
    (FuzzyScorer.init (some "abc 12".toList) (some "axc 34".toList)
      (.ofInt 0) false).score = .ok 60 := by
  constructor
  · decide
  · decide

/-- C4, amended: no validation exists: construction succeeds and scoring
runs for every multiplier (equal strings score 100 for any `dm`), and an
out-of-range `dm = 0` flows into scoring where it can raise
`ZeroDivisionError` instead (both unmatched characters are digits). -/
theorem c4_amended :
    (∀ dm : Frac, (FuzzyScorer.init (some "ab".toList) (some "ab".toList)
      dm false).score = .ok 100) ∧
    (FuzzyScorer.init (some "1".toList) (some "2".toList)
      (.ofInt 0) false).score = .error .zeroDivision := by
  constructor
  · intro dm
    show computeScore dm "ab".toList "ab".toList = .ok 100
    exact computeScore_self dm _
  · decide

/-- C9, counterexample: `compute_score` is not symmetric.  On the
digit-free pair `"aba"`, `"babba"` with `digit_multiplier = 1` the greedy
alignment keeps 3 characters in one orientation but only 2 in the other,
giving scores 60 and 33. -/
theorem c9_counterexample :
    computeScore (.ofInt 1) "aba".toList "babba".toList = .ok 60 ∧
    computeScore (.ofInt 1) "babba".toList "aba".toList = .ok 33 := by
  constructor
  · decide
  · decide

/-- C9, amended: symmetry fails in general; on equal arguments the score is
`100` for every string and every multiplier. -/
theorem c9_amended_reflexive (dm : Frac) (a : Str) :
    computeScore dm a a = .ok 100 :=
  computeScore_self dm a

/-! ## Claim C5: token rescoring under `order_irrelevance` -/

theorem exbind_ok {ε α β : Type} (a : α) (f : α → Except ε β) :
    (Except.ok a : Except ε α) >>= f = f a := rfl

theorem exbind_err {ε α β : Type} (e : ε) (f : α → Except ε β) :
    (Except.error e : Except ε α) >>= f = Except.error e := rfl

theorem expure_bind {ε α β : Type} (a : α) (f : α → Except ε β) :
    (pure a : Except ε α) >>= f = f a := rfl

theorem npMaskIndex_ok {α : Type} {mask : List Bool} (h : mask ≠ [])
    (xs : List α) : npMaskIndex xs mask = .ok (maskSel xs mask) := by
  cases mask with
  | nil => exact absurd rfl h
  | cons m ms => rfl

theorem zip4_map_4 {α β γ δ : Type} :
    ∀ (as : List α) (bs : List β) (cs : List γ) (ds : List δ),
    as.length = ds.length → bs.length = ds.length → cs.length = ds.length →
    (zip4 as bs cs ds).map (fun p => p.2.2.2) = ds := by
  intro as
  induction as with
  | nil =>
    intro bs cs ds h1 _ _
    cases ds with
    | nil => rfl
    | cons d ds' => exact absurd h1 (by simp)
  | cons a as' ih =>
    intro bs cs ds h1 h2 h3
    cases ds with
    | nil => exact absurd h1 (by simp)
    | cons d ds' =>
      cases bs with
      | nil => exact absurd h2 (by simp)
      | cons b bs' =>
        cases cs with
        | nil => exact absurd h3 (by simp)
        | cons c cs' =>
          have h1' : as'.length = ds'.length := by simpa using h1
          have h2' : bs'.length = ds'.length := by simpa using h2
          have h3' : cs'.length = ds'.length := by simpa using h3
          simp only [zip4, List.zip_cons_cons, List.map_cons]
          exact congrArg (d :: ·) (ih bs' cs' ds' h1' h2' h3')

theorem zip4_map_2 {α β γ δ : Type} :
    ∀ (as : List α) (bs : List β) (cs : List γ) (ds : List δ),
    as.length = bs.length → cs.length = bs.length → ds.length = bs.length →
    (zip4 as bs cs ds).map (fun p => p.2.1) = bs := by
  intro as
  induction as with
  | nil =>
    intro bs cs ds h1 _ _
    cases bs with
    | nil => rfl
    | cons b bs' => exact absurd h1 (by simp)
  | cons a as' ih =>
    intro bs cs ds h1 h2 h3
    cases bs with
    | nil => exact absurd h1 (by simp)
    | cons b bs' =>
      cases cs with
      | nil => exact absurd h2 (by simp)
      | cons c cs' =>
        cases ds with
        | nil => exact absurd h3 (by simp)
        | cons d ds' =>
          have h1' : as'.length = bs'.length := by simpa using h1
          have h2' : cs'.length = bs'.length := by simpa using h2
          have h3' : ds'.length = bs'.length := by simpa using h3
          simp only [zip4, List.zip_cons_cons, List.map_cons]
          exact congrArg (b :: ·) (ih bs' cs' ds' h1' h2' h3')

/-- C5: with `order_irrelevance` on, (1) each candidate's stage score
follows the claimed rule — the raw score is kept when it is `100` or below
`⌊valid_threshold/3⌋`, else the max with the token-sorted score; (2) in the
secondary stage (`combine = true`) the emitted improvement flags are the
logical OR of the primary-stage flags and this stage's strict improvements,
filtered by the passing mask, and the stage result is exactly the masked
arrays; (3) `finalize` renders flag `"OR"` exactly for the entries whose
selected improvement flag is true. -/
theorem c5_token_rescoring (query : Option Str) (dm : Frac) (T : ℤ)
    (hT : 0 ≤ T) (scored rcr rcf : List Str) (rpos prevSc : List ℤ)
    (imp1 : List Bool) (raws toks : List ℤ)
    (hm : scored.mapM
      (fun c => ((FuzzyScorer.init query none dm false).set_choice
        (some c)).score) = .ok raws)
    (ht : tokenLoop (FuzzyScorer.init query none dm true) (Int.tdiv T 3)
      scored raws = .ok toks)
    (hany : ((List.zipWith max raws toks).map
      (fun e => decide (T ≤ e))).any id = true)
    (rcrF rcfF : List Str) (rrsc rfsc rpos2 : List ℤ) (imp : List Bool)
    (topn : Option ℕ) :
    (∀ (c : Str) (raw : ℤ), 0 ≤ raw →
      (tokenLoop (FuzzyScorer.init query none dm true) (Int.tdiv T 3)
        [c] [raw]).map (fun tk => List.zipWith max [raw] tk) =
      (stageScoreSpec query dm T c raw).map (fun v => [v])) ∧
    scoreStage query scored rcr rcf rpos prevSc imp1 true T dm true =
      .ok (some
        (maskSel rcr ((List.zipWith max raws toks).map
          (fun e => decide (T ≤ e))),
         maskSel rcf ((List.zipWith max raws toks).map
          (fun e => decide (T ≤ e))),
         maskSel (List.zipWith max raws toks)
          ((List.zipWith max raws toks).map (fun e => decide (T ≤ e))),
         maskSel prevSc ((List.zipWith max raws toks).map
          (fun e => decide (T ≤ e))),
         maskSel rpos ((List.zipWith max raws toks).map
          (fun e => decide (T ≤ e))),
         maskSel (List.zipWith or imp1
            (List.zipWith (fun r t => decide (r < t)) raws toks))
          ((List.zipWith max raws toks).map (fun e => decide (T ≤ e))))) ∧
    (finalize rcrF rcfF rrsc rfsc rpos2 imp topn true).map
        (fun e => e.2.2.2) =
      (takeIdx imp (posTop (List.zipWith (fun r f => intSqrt (r * f))
        rrsc rfsc) topn) false).map
        (fun b => if b then ['O', 'R'] else []) := by
  have hsingle : ∀ (fusT : FuzzyScorer) (hh : ℤ) (c : Str) (raw : ℤ),
      tokenLoop fusT hh [c] [raw] =
        (if raw = 100 then Except.ok 100
         else if raw < hh then Except.ok 0
         else (fusT.set_choice (some c)).score).map (fun t => [t]) := by
    intro fusT hh c raw
    simp only [tokenLoop, List.zip_cons_cons, List.zip_nil_right,
      List.mapM_cons, List.mapM_nil]
    by_cases h1 : raw = 100
    · rw [if_pos h1, if_pos h1]
      rfl
    · rw [if_neg h1, if_neg h1]
      by_cases h2 : raw < hh
      · rw [if_pos h2, if_pos h2]
        rfl
      · rw [if_neg h2, if_neg h2]
        cases (fusT.set_choice (some c)).score with
        | error e => rfl
        | ok tok => rfl
  refine ⟨?_, ?_, ?_⟩
  · intro c raw hraw
    have htd : Int.tdiv T 3 = T / 3 := Int.tdiv_eq_ediv hT (by norm_num)
    rw [hsingle]
    unfold stageScoreSpec
    by_cases h100 : raw = 100
    · rw [if_pos h100, if_pos (Or.inl h100)]
      subst h100
      rfl
    · rw [if_neg h100]
      by_cases hlow : raw < Int.tdiv T 3
      · rw [if_pos hlow, if_pos (Or.inr (htd ▸ hlow))]
        simp [Except.map, max_eq_left hraw]
      · rw [if_neg hlow, if_neg (by rw [← htd]; tauto)]
        cases ((FuzzyScorer.init query none dm true).set_choice
            (some c)).score with
        | error e => rfl
        | ok tok => rfl
  · have hne : ((List.zipWith max raws toks).map
        (fun e => decide (T ≤ e))) ≠ [] := by
      intro hnil
      rw [hnil] at hany
      simp at hany
    unfold scoreStage
    dsimp only
    rw [hm, exbind_ok]
    simp only [if_true]
    rw [ht, exbind_ok, expure_bind]
    dsimp only
    rw [if_neg (by rw [hany]; simp)]
    rw [npMaskIndex_ok hne, exbind_ok, npMaskIndex_ok hne, exbind_ok,
      npMaskIndex_ok hne, exbind_ok, npMaskIndex_ok hne, exbind_ok,
      npMaskIndex_ok hne, exbind_ok, npMaskIndex_ok hne, exbind_ok]
    rfl
  · unfold finalize
    dsimp only
    simp only [if_true]
    rw [zip4_map_4]
    · simp only [takeIdx, List.length_zipWith, List.length_map]
      omega
    · simp only [takeIdx, List.length_map]
    · simp only [takeIdx, List.length_map]

/-- Witness for C5 at a concrete run: query `"ab"`, one candidate `"ab"`,
threshold 0. -/
theorem c5_token_rescoring_witness :
    scoreStage (some "ab".toList) ["ab".toList] ["ab".toList] ["ab".toList]
      [0] [100] [false] true 0 (.ofInt 1) true =
      .ok (some (["ab".toList], ["ab".toList], [100], [100], [0], [false])) :=
  (c5_token_rescoring (some "ab".toList) (.ofInt 1) 0 (by decide)
    ["ab".toList] ["ab".toList] ["ab".toList] [0] [100] [false] [100] [100]
    (by decide) (by decide) (by decide)
    [] [] [] [] [] [] none).2.1

/-! ## Claim C6: finalize -/

theorem sqrtGo_sq_le : ∀ (fuel r n : ℕ), r * r ≤ n →
    sqrtGo fuel r n * sqrtGo fuel r n ≤ n := by
  intro fuel
  induction fuel with
  | zero => intro r n h; exact h
  | succ fuel ih =>
    intro r n h
    unfold sqrtGo
    split
    · exact ih (r + 1) n (by assumption)
    · exact h

theorem sqrtGo_lt : ∀ (fuel r n : ℕ),
    n < (r + fuel + 1) * (r + fuel + 1) →
    n < (sqrtGo fuel r n + 1) * (sqrtGo fuel r n + 1) := by
  intro fuel
  induction fuel with
  | zero => intro r n h; exact h
  | succ fuel ih =>
    intro r n h
    unfold sqrtGo
    split
    · exact ih (r + 1) n (by
        have : r + 1 + fuel + 1 = r + (fuel + 1) + 1 := by omega
        rw [this]
        exact h)
    · omega

/-- `intSqrt` is the floor of the square root on nonnegative integers. -/
theorem intSqrt_bracket {z : ℤ} (hz : 0 ≤ z) :
    intSqrt z * intSqrt z ≤ z ∧ z < (intSqrt z + 1) * (intSqrt z + 1) := by
  unfold intSqrt
  constructor
  · have h := sqrtGo_sq_le z.toNat 0 z.toNat (by simp)
    zify at h
    rwa [Int.toNat_of_nonneg hz] at h
  · have h := sqrtGo_lt z.toNat 0 z.toNat (by nlinarith [Nat.zero_le z.toNat])
    zify at h
    rwa [Int.toNat_of_nonneg hz] at h

theorem intSqrt_ge {z T : ℤ} (hT : 0 ≤ T) (h : T * T ≤ z) :
    T ≤ intSqrt z := by
  have hz : 0 ≤ z := le_trans (by positivity) h
  have hb := (intSqrt_bracket hz).2
  have hs : (0:ℤ) ≤ intSqrt z := by
    unfold intSqrt
    positivity
  by_contra hc
  push_neg at hc
  have h1 : intSqrt z + 1 ≤ T := hc
  have h2 : (intSqrt z + 1) * (intSqrt z + 1) ≤ T * T :=
    mul_le_mul h1 h1 (by linarith) hT
  linarith

theorem posTop_none (key : List ℤ) :
    posTop key none = (argsortAsc key).reverse := rfl

theorem posTop_some (key : List ℤ) (n : ℕ) :
    posTop key (some n) =
      if n < key.length ∧ n ≠ 0 then
        ((argsortAsc key).drop (key.length - n)).reverse
      else (argsortAsc key).reverse := rfl

/-- Every index selected by `posTop` is a valid index into the key. -/
theorem posTop_mem {key : List ℤ} {topn : Option ℕ} {i : ℕ}
    (h : i ∈ posTop key topn) : i < key.length := by
  have hmem : i ∈ argsortAsc key := by
    have hrev : ∀ {l : List ℕ}, i ∈ l.reverse → i ∈ l := by
      intro l hl
      exact List.mem_reverse.mp hl
    rcases topn with _ | n
    · rw [posTop_none] at h
      exact hrev h
    · rw [posTop_some] at h
      by_cases hc : n < key.length ∧ n ≠ 0
      · rw [if_pos hc] at h
        exact List.mem_of_mem_drop (hrev h)
      · rw [if_neg hc] at h
        exact hrev h
  unfold argsortAsc at hmem
  have := (List.perm_insertionSort (idxLe key) (List.range key.length)).mem_iff.mp
    hmem
  exact List.mem_range.mp this

/-- With `1 ≤ top_n`, `posTop` keeps at most `top_n` indices. -/
theorem posTop_length (key : List ℤ) (n : ℕ) (hn : 1 ≤ n) :
    (posTop key (some n)).length ≤ n := by
  rw [posTop_some]
  by_cases hc : n < key.length ∧ n ≠ 0
  · rw [if_pos hc]
    simp [argsortAsc, List.length_insertionSort]
    omega
  · rw [if_neg hc]
    simp [argsortAsc, List.length_insertionSort]
    omega

/-- `posTop` is strictly descending on keys, ties in reverse index order. -/
theorem posTop_pairwise (key : List ℤ) (topn : Option ℕ) :
    List.Pairwise (fun i j => key.getD j 0 < key.getD i 0 ∨
      (key.getD i 0 = key.getD j 0 ∧ j < i)) (posTop key topn) := by
  have hsorted : List.Pairwise (idxLe key)
      (List.insertionSort (idxLe key) (List.range key.length)) :=
    List.sorted_insertionSort _ _
  have hnodup : (List.insertionSort (idxLe key)
      (List.range key.length)).Nodup :=
    ((List.perm_insertionSort _ _).nodup_iff).mpr (List.nodup_range _)
  have hstrict : List.Pairwise
      (fun i j => key.getD i 0 < key.getD j 0 ∨
        (key.getD i 0 = key.getD j 0 ∧ i < j))
      (List.insertionSort (idxLe key) (List.range key.length)) := by
    have hand := List.Pairwise.and hsorted hnodup
    apply hand.imp
    intro i j hij
    obtain ⟨hle, hne⟩ := hij
    unfold idxLe at hle
    rcases hle with h | ⟨he, hi⟩
    · exact Or.inl h
    · exact Or.inr ⟨he, by omega⟩
  have hflip : ∀ (l : List ℕ),
      List.Pairwise (fun i j => key.getD i 0 < key.getD j 0 ∨
        (key.getD i 0 = key.getD j 0 ∧ i < j)) l →
      List.Pairwise (fun i j => key.getD j 0 < key.getD i 0 ∨
        (key.getD i 0 = key.getD j 0 ∧ j < i)) l.reverse := by
    intro l hl
    rw [List.pairwise_reverse]
    apply hl.imp
    intro i j hij
    rcases hij with h | ⟨he, hi⟩
    · exact Or.inl h
    · exact Or.inr ⟨he.symm, hi⟩
  rcases topn with _ | n
  · rw [posTop_none]
    exact hflip _ hstrict
  · rw [posTop_some]
    by_cases hc : n < key.length ∧ n ≠ 0
    · rw [if_pos hc]
      exact hflip _ (List.Pairwise.sublist (List.drop_sublist _ _) hstrict)
    · rw [if_neg hc]
      exact hflip _ hstrict

/-- The scores of the finalize output are the weighted scores at the
selected indices. -/
theorem finalize_scores (rcr rcf : List Str) (rrsc rfsc rpos : List ℤ)
    (imp : List Bool) (topn : Option ℕ) (oi : Bool) :
    (finalize rcr rcf rrsc rfsc rpos imp topn oi).map (fun e => e.2.1) =
      takeIdx (List.zipWith (fun r f => intSqrt (r * f)) rrsc rfsc)
        (posTop (List.zipWith (fun r f => intSqrt (r * f)) rrsc rfsc) topn)
        0 := by
  unfold finalize
  dsimp only
  apply zip4_map_2
  · simp only [takeIdx, List.length_zipWith, List.length_map]
    omega
  · simp only [takeIdx, List.length_map]
  · cases oi <;>
      simp only [if_true, if_false, Bool.false_eq_true, takeIdx,
        List.length_map, List.length_replicate]

set_option maxRecDepth 100000 in
/-- C6, counterexample: two identical candidates (pool ids 0 and 1) tie at
weighted score 100, and the funnel returns them in REVERSE pool order
(id 1 first), not original pool order: `np.argsort` ascending puts the
earlier index first, and the `[::-1]` reversal flips equal-key runs too. -/
theorem c6_counterexample :
    findCurBest (some "ab".toList) (some "cd".toList)
      ["ab".toList, "ab".toList] ["cd".toList, "cd".toList] [0, 1]
      (some 3) 0 (.ofInt 1) true false =
      .ok (some [("ab : cd".toList, 100, 1, []),
                 ("ab : cd".toList, 100, 0, [])]) := by
  decide

/-- C6, amended: every finalize output satisfies: the weighted score is
`⌊sqrt(primary*secondary)⌋` (stated as the square bracket); at most `top_n`
entries when `top_n ≥ 1` is given; every returned weighted score is at
least `valid_threshold` when all stage scores are; scores are sorted
descending — but ties among equal weighted scores are returned in REVERSE
original pool order, not original pool order. -/
theorem c6_amended (rcr rcf : List Str) (rrsc rfsc rpos : List ℤ)
    (imp : List Bool) (topn : Option ℕ) (oi : Bool) (T : ℤ) (hT : 0 ≤ T)
    (hlen : rfsc.length = rrsc.length)
    (hrT : ∀ x ∈ rrsc, T ≤ x) (hfT : ∀ x ∈ rfsc, T ≤ x) :
    (∀ i, i < rrsc.length →
      ((List.zipWith (fun r f => intSqrt (r * f)) rrsc rfsc).getD i 0) *
        ((List.zipWith (fun r f => intSqrt (r * f)) rrsc rfsc).getD i 0) ≤
        rrsc.getD i 0 * rfsc.getD i 0 ∧
      rrsc.getD i 0 * rfsc.getD i 0 <
        ((List.zipWith (fun r f => intSqrt (r * f)) rrsc rfsc).getD i 0 + 1) *
        ((List.zipWith (fun r f => intSqrt (r * f)) rrsc rfsc).getD i 0 +
          1)) ∧
    (∀ k, topn = some k → 1 ≤ k →
      (finalize rcr rcf rrsc rfsc rpos imp topn oi).length ≤ k) ∧
    (∀ e ∈ finalize rcr rcf rrsc rfsc rpos imp topn oi, T ≤ e.2.1) ∧
    List.Pairwise (fun x y => y ≤ x)
      ((finalize rcr rcf rrsc rfsc rpos imp topn oi).map (fun e => e.2.1)) ∧
    List.Pairwise (fun i j =>
      (List.zipWith (fun r f => intSqrt (r * f)) rrsc rfsc).getD j 0 <
        (List.zipWith (fun r f => intSqrt (r * f)) rrsc rfsc).getD i 0 ∨
      ((List.zipWith (fun r f => intSqrt (r * f)) rrsc rfsc).getD i 0 =
        (List.zipWith (fun r f => intSqrt (r * f)) rrsc rfsc).getD j 0 ∧
        j < i))
      (posTop (List.zipWith (fun r f => intSqrt (r * f)) rrsc rfsc) topn) := by
  have hw : (List.zipWith (fun r f => intSqrt (r * f)) rrsc rfsc).length =
      rrsc.length := by
    simp [List.length_zipWith]
    omega
  have hget : ∀ i, i < rrsc.length →
      (List.zipWith (fun r f => intSqrt (r * f)) rrsc rfsc).getD i 0 =
        intSqrt (rrsc.getD i 0 * rfsc.getD i 0) ∧
      T ≤ rrsc.getD i 0 ∧ T ≤ rfsc.getD i 0 := by
    intro i hi
    have hiw : i < (List.zipWith (fun r f => intSqrt (r * f))
        rrsc rfsc).length := by omega
    have hir : i < rrsc.length := hi
    have hif : i < rfsc.length := by omega
    refine ⟨?_, ?_, ?_⟩
    · rw [List.getD_eq_getElem _ _ hiw, List.getD_eq_getElem _ _ hir,
        List.getD_eq_getElem _ _ hif, List.getElem_zipWith]
    · rw [List.getD_eq_getElem _ _ hir]
      exact hrT _ (List.getElem_mem _)
    · rw [List.getD_eq_getElem _ _ hif]
      exact hfT _ (List.getElem_mem _)
  have hprod : ∀ i, i < rrsc.length →
      (0:ℤ) ≤ rrsc.getD i 0 * rfsc.getD i 0 := by
    intro i hi
    obtain ⟨_, h1, h2⟩ := hget i hi
    exact mul_nonneg (le_trans hT h1) (le_trans hT h2)
  refine ⟨?_, ?_, ?_, ?_, ?_⟩
  · intro i hi
    obtain ⟨he, _, _⟩ := hget i hi
    rw [he]
    exact intSqrt_bracket (hprod i hi)
  · intro k hk hk1
    have hl : (finalize rcr rcf rrsc rfsc rpos imp topn oi).length =
        (posTop (List.zipWith (fun r f => intSqrt (r * f)) rrsc rfsc)
          topn).length := by
      have := congrArg List.length
        (finalize_scores rcr rcf rrsc rfsc rpos imp topn oi)
      simpa [takeIdx] using this
    rw [hl, hk]
    exact posTop_length _ k hk1
  · intro e he
    have hmem : e.2.1 ∈ (finalize rcr rcf rrsc rfsc rpos imp topn oi).map
        (fun e => e.2.1) := List.mem_map_of_mem _ he
    rw [finalize_scores] at hmem
    unfold takeIdx at hmem
    rw [List.mem_map] at hmem
    obtain ⟨i, hi, hei⟩ := hmem
    have hilt : i < rrsc.length := by
      have := posTop_mem hi
      omega
    obtain ⟨hwv, h1, h2⟩ := hget i hilt
    rw [← hei, hwv]
    exact intSqrt_ge hT (mul_le_mul h1 h2 hT (le_trans hT h1))
  · rw [finalize_scores]
    unfold takeIdx
    rw [List.pairwise_map]
    apply (posTop_pairwise _ topn).imp
    intro i j hij
    rcases hij with h | ⟨h, _⟩
    · exact le_of_lt h
    · exact le_of_eq h.symm
  · exact posTop_pairwise _ topn

/-- Witness for C6 at a concrete run: two candidates, `top_n = 1`,
threshold 0. -/
theorem c6_amended_witness :
    List.Pairwise (fun x y => y ≤ x)
      ((finalize ["a".toList] ["b".toList] [100, 50] [64, 50] [0, 1] []
        (some 1) false).map (fun e => e.2.1)) :=
  (c6_amended ["a".toList] ["b".toList] [100, 50] [64, 50] [0, 1] []
    (some 1) false 0 (by decide) (by decide) (by decide)
    (by decide)).2.2.2.1

/-! ## Claims C7 and C8: batch mapping -/

/-- A successful `mapM` over `Except` produces one output per input, each
determined by its own input. -/
theorem mapM_ok_spec {ε α β : Type} (f : α → Except ε β) (da : α) (db : β) :
    ∀ (l : List α) (res : List β), l.mapM f = .ok res →
      res.length = l.length ∧
      ∀ i, i < l.length → f (l.getD i da) = .ok (res.getD i db) := by
  intro l
  induction l with
  | nil =>
    intro res h
    have h' : (Except.ok ([] : List β) : Except ε (List β)) = .ok res := h
    injection h' with h2
    subst h2
    exact ⟨rfl, fun i hi => absurd hi (by simp)⟩
  | cons a l' ih =>
    intro res h
    rw [List.mapM_cons] at h
    cases hfa : f a with
    | error e =>
      rw [hfa, exbind_err] at h
      exact Except.noConfusion h
    | ok b =>
      rw [hfa, exbind_ok] at h
      cases hml : l'.mapM f with
      | error e =>
        rw [hml, exbind_err] at h
        exact Except.noConfusion h
      | ok bs =>
        rw [hml, exbind_ok] at h
        have h' : (Except.ok (b :: bs) : Except ε (List β)) = .ok res := h
        injection h' with h2
        subst h2
        obtain ⟨ih1, ih2⟩ := ih bs hml
        refine ⟨by simp [ih1], ?_⟩
        intro i hi
        cases i with
        | zero => simpa using hfa
        | succ i' =>
          rw [List.getD_cons_succ, List.getD_cons_succ]
          exact ih2 i' (by simpa using hi)

/-- `mapM` of a pointwise-successful function is the `map` of its values. -/
theorem mapM_eq_map {ε α β : Type} (f : α → Except ε β) (g : α → β)
    (hf : ∀ a, f a = .ok (g a)) :
    ∀ l : List α, l.mapM f = .ok (l.map g) := by
  intro l
  induction l with
  | nil => rfl
  | cons a l' ih =>
    rw [List.mapM_cons, hf a, exbind_ok, ih, exbind_ok]
    rfl

/-- Both execution branches of `find_best` are the same map over the
zipped queries. -/
theorem findBest_eq (rs fs : List (Option Str)) (cr cf : List Str)
    (pos : List ℤ) (topn : Option ℕ) (T : ℤ) (dm : Frac) (mp q oi : Bool) :
    findBest rs fs cr cf pos topn T dm mp q oi =
      ((rs.zip fs).mapM
          (fun rf => findCurBest rf.1 rf.2 cr cf pos topn T dm q oi) >>=
        fun mats => pure ((mats.zip (rs.zip fs)).map (fun p =>
          match p.1 with
          | none => none
          | some [] => none
          | some (x :: xs) =>
            some (strOfOpt p.2.1 ++ ' ' :: ':' :: ' ' :: strOfOpt p.2.2,
              x :: xs)))) := by
  cases mp <;> rfl

/-- C7, counterexample: `find_best` does not return one entry per query —
with `quick_comparison` off (its own default) the whole batch run raises
`UnboundLocalError` instead of returning a list. -/
theorem c7_counterexample :
    findBest [some "a".toList] [some "b".toList] ["a".toList] ["b".toList]
      [0] (some 3) 0 (.ofInt 1) false false false = .error .nameError := rfl

/-- C7, amended: whenever a batch run returns a list, multi-processing and
sequential execution return that same list; the list has exactly one entry
per (zipped) query, and entry `i` is determined by query `i` alone: the
`find_cur_best` result for that query, labelled with that query, with a
falsy result becoming `None`. -/
theorem c7_amended (rs fs : List (Option Str)) (cr cf : List Str)
    (pos : List ℤ) (topn : Option ℕ) (T : ℤ) (dm : Frac) (q oi : Bool)
    (l : List (Option (Str × List MatchEntry)))
    (h : findBest rs fs cr cf pos topn T dm false q oi = .ok l) :
    findBest rs fs cr cf pos topn T dm true q oi = .ok l ∧
    l.length = min rs.length fs.length ∧
    ∀ i, i < l.length →
      ∃ m, findCurBest (rs.getD i none) (fs.getD i none) cr cf pos topn T
          dm q oi = .ok m ∧
        l.getD i none = (match m with
          | none => none
          | some [] => none
          | some (x :: xs) =>
            some (strOfOpt (rs.getD i none) ++ ' ' :: ':' :: ' ' ::
              strOfOpt (fs.getD i none), x :: xs)) := by
  have hmp : findBest rs fs cr cf pos topn T dm true q oi =
      findBest rs fs cr cf pos topn T dm false q oi := rfl
  have h0 := h
  rw [findBest_eq] at h
  cases hm : (rs.zip fs).mapM
      (fun rf => findCurBest rf.1 rf.2 cr cf pos topn T dm q oi) with
  | error e =>
    rw [hm, exbind_err] at h
    exact Except.noConfusion h
  | ok mats =>
    rw [hm, exbind_ok] at h
    have h' : (Except.ok ((mats.zip (rs.zip fs)).map (fun p =>
        match p.1 with
        | none => none
        | some [] => none
        | some (x :: xs) =>
          some (strOfOpt p.2.1 ++ ' ' :: ':' :: ' ' :: strOfOpt p.2.2,
            x :: xs))) : Except PyErr _) = .ok l := h
    injection h' with h2
    subst h2
    obtain ⟨hlen, hidx⟩ := mapM_ok_spec _ (none, none) none _ _ hm
    have hL : ((mats.zip (rs.zip fs)).map (fun p =>
        match p.1 with
        | none => none
        | some [] => none
        | some (x :: xs) =>
          some (strOfOpt p.2.1 ++ ' ' :: ':' :: ' ' :: strOfOpt p.2.2,
            x :: xs))).length = min rs.length fs.length := by
      rw [List.length_map, List.length_zip, hlen, List.length_zip,
        Nat.min_self]
    refine ⟨hmp.trans h0, hL, ?_⟩
    intro i hi
    have hi1 : i < (rs.zip fs).length := by
      rw [hL] at hi
      rw [List.length_zip]
      exact hi
    have hi2 : i < mats.length := by omega
    have hir : i < rs.length := by
      rw [List.length_zip] at hi1
      omega
    have hif : i < fs.length := by
      rw [List.length_zip] at hi1
      omega
    refine ⟨mats.getD i none, ?_, ?_⟩
    · have hv := hidx i hi1
      have hz : (rs.zip fs).getD i (none, none) =
          (rs.getD i none, fs.getD i none) := by
        rw [List.getD_eq_getElem _ _ hi1, List.getElem_zip,
          List.getD_eq_getElem _ _ hir, List.getD_eq_getElem _ _ hif]
      rw [hz] at hv
      exact hv
    · have hig : i < ((mats.zip (rs.zip fs)).map (fun p =>
          match p.1 with
          | none => none
          | some [] => none
          | some (x :: xs) =>
            some (strOfOpt p.2.1 ++ ' ' :: ':' :: ' ' :: strOfOpt p.2.2,
              x :: xs))).length := hi
      rw [List.getD_eq_getElem _ _ hig, List.getElem_map, List.getElem_zip,
        List.getElem_zip]
      rw [← List.getD_eq_getElem mats none hi2,
        ← List.getD_eq_getElem rs none hir,
        ← List.getD_eq_getElem fs none hif]

/-- Witness for C7 at a concrete run: one query against one candidate. -/
theorem c7_amended_witness :
    findBest [some "ab".toList] [some "cd".toList] ["ab".toList]
      ["cd".toList] [5] none 0 (.ofInt 1) true true false =
      .ok [some ("ab : cd".toList,
        [("ab : cd".toList, 100, 5, [])])] :=
  (c7_amended [some "ab".toList] [some "cd".toList] ["ab".toList]
    ["cd".toList] [5] none 0 (.ofInt 1) true false
    [some ("ab : cd".toList, [("ab : cd".toList, 100, 5, [])])]
    (by decide)).1

/-- With `quick_comparison` on, a non-string primary field always yields a
quiet no-match: the first `real_quick_ratio` call raises `TypeError` (or,
on an empty pool, the empty mask raises `IndexError`), which is caught. -/
theorem findCurBest_bad_registrant (fund : Option Str) (cr cf : List Str)
    (pos : List ℤ) (topn : Option ℕ) (T : ℤ) (dm : Frac) (oi : Bool) :
    findCurBest none fund cr cf pos topn T dm true oi = .ok none := by
  cases cr with
  | nil => rfl
  | cons c cr' => rfl

/-- With `quick_comparison` on, a non-string secondary field always yields
a quiet no-match. -/
theorem findCurBest_bad_fund (registrant : Option Str) (cr cf : List Str)
    (pos : List ℤ) (topn : Option ℕ) (T : ℤ) (dm : Frac) (oi : Bool) :
    findCurBest registrant none cr cf pos topn T dm true oi = .ok none := by
  cases cr with
  | nil => rfl
  | cons c cr' =>
    cases registrant with
    | none => rfl
    | some s =>
      cases hrcf : maskSel cf ((c :: cr').map
          (fun x => decide (T ≤ realQuickRatio x s))) with
      | nil =>
        have hqb : quickBlock (some s) none (c :: cr') cf pos T dm =
            .error .indexError := by
          unfold quickBlock
          dsimp only
          rw [mapM_eq_map
            (fun choice => ((FuzzyScorer.init (some s) none dm
              false).set_choice (some choice)).quickRatio >>=
                fun r => pure (decide (T ≤ r)))
            (fun x => decide (T ≤ realQuickRatio x s)) (fun x => rfl),
            exbind_ok]
          rw [npMaskIndex_ok (by simp), exbind_ok, npMaskIndex_ok (by simp),
            exbind_ok, npMaskIndex_ok (by simp), exbind_ok]
          rw [hrcf]
          rfl
        unfold findCurBest
        rw [hqb]
        rfl
      | cons d ds =>
        have hqb : quickBlock (some s) none (c :: cr') cf pos T dm =
            .error .typeError := by
          unfold quickBlock
          dsimp only
          rw [mapM_eq_map
            (fun choice => ((FuzzyScorer.init (some s) none dm
              false).set_choice (some choice)).quickRatio >>=
                fun r => pure (decide (T ≤ r)))
            (fun x => decide (T ≤ realQuickRatio x s)) (fun x => rfl),
            exbind_ok]
          rw [npMaskIndex_ok (by simp), exbind_ok, npMaskIndex_ok (by simp),
            exbind_ok, npMaskIndex_ok (by simp), exbind_ok]
          rw [hrcf]
          rfl
        unfold findCurBest
        rw [hqb]
        rfl

/-- With `quick_comparison` on, an empty pool yields a quiet no-match for
every query in the batch. -/
theorem findBest_empty_pool (rs fs : List (Option Str)) (topn : Option ℕ)
    (T : ℤ) (dm : Frac) (mp oi : Bool) :
    findBest rs fs [] [] [] topn T dm mp true oi =
      .ok ((rs.zip fs).map (fun _ => none)) := by
  rw [findBest_eq]
  rw [mapM_eq_map
    (fun rf : Option Str × Option Str =>
      findCurBest rf.1 rf.2 [] [] [] topn T dm true oi)
    (fun _ => (none : Option (List MatchEntry)))
    (fun rf => rfl), exbind_ok]
  generalize rs.zip fs = l
  induction l with
  | nil => rfl
  | cons p l' ih =>
    simp only [List.map_cons, List.zip_cons_cons]
    have hx := Except.ok.inj ih
    exact congrArg Except.ok (congrArg (none :: ·) hx)

/-- C8, counterexample: a query with a non-string secondary field makes the
whole batch raise `UnboundLocalError` when `quick_comparison` is off — the
claim's "never raise" does not hold for that configuration. -/
theorem c8_counterexample :
    findBest [some "ax".toList] [none] ["ax".toList] ["by".toList] [0]
      none 0 (.ofInt 1) false false false = .error .nameError := rfl

/-- C8, amended: with `quick_comparison` on, the claim holds: a non-string
primary or secondary field yields `None` for that query without raising,
an empty candidate pool yields `None` for every query, and other queries
in the batch are still processed normally (concrete two-query batch: the
good query still gets its match while the bad one gets `None`). -/
theorem c8_amended :
    (∀ (fund : Option Str) (cr cf : List Str) (pos : List ℤ)
      (topn : Option ℕ) (T : ℤ) (dm : Frac) (oi : Bool),
      findCurBest none fund cr cf pos topn T dm true oi = .ok none) ∧
    (∀ (registrant : Option Str) (cr cf : List Str) (pos : List ℤ)
      (topn : Option ℕ) (T : ℤ) (dm : Frac) (oi : Bool),
      findCurBest registrant none cr cf pos topn T dm true oi = .ok none) ∧
    (∀ (rs fs : List (Option Str)) (topn : Option ℕ) (T : ℤ) (dm : Frac)
      (mp oi : Bool),
      findBest rs fs [] [] [] topn T dm mp true oi =
        .ok ((rs.zip fs).map (fun _ => none))) ∧
    findBest [some "ab".toList, some "ab".toList] [some "cd".toList, none]
      ["ab".toList] ["cd".toList] [7] none 0 (.ofInt 1) false true false =
      .ok [some ("ab : cd".toList, [("ab : cd".toList, 100, 7, [])]),
        none] :=
  ⟨findCurBest_bad_registrant, findCurBest_bad_fund, findBest_empty_pool,
    by decide⟩

/-! ## Claim C2: real_quick_ratio -/

/-- Floor and fractional-part bounds of a ratio of naturals. -/
theorem floor_ratio_facts (Nn Ss : ℕ) (hS1 : 1 ≤ Ss) :
    ⌊(Nn:ℚ) / (Ss:ℚ)⌋ = ((Nn / Ss : ℕ) : ℤ) ∧
    ((Nn / Ss : ℕ) : ℚ) ≤ (Nn:ℚ) / (Ss:ℚ) ∧
    (Nn:ℚ) / (Ss:ℚ) ≤ ((Nn / Ss : ℕ) : ℚ) + 1 - 1/(Ss:ℚ) := by
  have hsplit : Nn = Ss * (Nn / Ss) + Nn % Ss := (Nat.div_add_mod Nn Ss).symm
  have hrS : Nn % Ss < Ss := Nat.mod_lt _ (by omega)
  have hSQ : (0:ℚ) < (Ss:ℚ) := by exact_mod_cast (by omega : 0 < Ss)
  have hsplitQ : (Nn:ℚ) = (Ss:ℚ) * ((Nn / Ss : ℕ):ℚ) + ((Nn % Ss : ℕ):ℚ) := by
    exact_mod_cast hsplit
  have hrQ : ((Nn % Ss : ℕ):ℚ) ≤ (Ss:ℚ) - 1 := by
    have h : Nn % Ss + 1 ≤ Ss := by omega
    have h' : ((Nn % Ss : ℕ):ℚ) + 1 ≤ (Ss:ℚ) := by exact_mod_cast h
    linarith
  have hr0 : (0:ℚ) ≤ ((Nn % Ss : ℕ):ℚ) := by positivity
  have hlow : ((Nn / Ss : ℕ) : ℚ) ≤ (Nn:ℚ) / (Ss:ℚ) := by
    rw [le_div_iff hSQ]
    nlinarith
  have hhigh : (Nn:ℚ) / (Ss:ℚ) ≤ ((Nn / Ss : ℕ) : ℚ) + 1 - 1/(Ss:ℚ) := by
    rw [div_le_iff hSQ]
    have hexp : (((Nn / Ss : ℕ) : ℚ) + 1 - 1/(Ss:ℚ)) * (Ss:ℚ) =
        (Ss:ℚ) * ((Nn / Ss : ℕ):ℚ) + (Ss:ℚ) - 1 := by
      field_simp
      ring
    rw [hexp]
    linarith
  refine ⟨?_, hlow, hhigh⟩
  rw [Int.floor_eq_iff]
  constructor
  · rw [Int.cast_natCast]
    exact hlow
  · rw [Int.cast_natCast]
    have h1S : (0:ℚ) < 1/(Ss:ℚ) := by positivity
    linarith

/-- The code's `real_quick_ratio` equals the exact floor formula whenever
the combined length is at most `2 ^ 40` (the binary64 division error is
then too small to cross an integer). -/
theorem realQuickRatio_eq (a b : Str) (hs : a.length + b.length ≤ 2 ^ 40) :
    realQuickRatio a b =
      if a.length = 0 ∧ b.length = 0 then 100
      else ⌊((100 * 2 * min a.length b.length : ℕ) : ℚ) /
             ((a.length + b.length : ℕ) : ℚ)⌋ := by
  by_cases h0 : a.length = 0 ∧ b.length = 0
  · rw [if_pos h0]
    unfold realQuickRatio
    rw [if_pos h0]
  · rw [if_neg h0]
    unfold realQuickRatio
    rw [if_neg h0]
    set la := a.length with hla
    set lb := b.length with hlb
    set N : ℕ := 100 * 2 * min la lb with hN
    set S : ℕ := la + lb with hS
    have hS1 : 1 ≤ S := by omega
    have hNS : N ≤ 100 * S := by
      have h1 := Nat.min_le_left la lb
      have h2 := Nat.min_le_right la lb
      omega
    obtain ⟨hfloor, hlow, hhigh⟩ := floor_ratio_facts N S hS1
    set q := N / S with hq
    have hq100 : q ≤ 100 := by
      by_contra hc
      push_neg at hc
      have h1 : q * S ≤ N := Nat.div_mul_le_self N S
      have h2 : 101 * S ≤ q * S := Nat.mul_le_mul_right S (by omega)
      omega
    have hx : (Frac.ofInt (N:ℤ)).div (Frac.ofInt (S:ℤ)) =
        ⟨(N:ℤ) * 1, 1 * (S:ℤ)⟩ := by
      unfold Frac.div
      rw [if_neg (show ¬ (Frac.ofInt (S:ℤ)).num < 0 by
        simp only [Frac.ofInt]
        omega)]
      rfl
    rw [hx, hfloor]
    set x : Frac := ⟨(N:ℤ) * 1, 1 * (S:ℤ)⟩ with hxd
    have hxden : 0 < x.den := by
      rw [hxd]
      dsimp
      omega
    have hxnum : 0 ≤ x.num := by
      rw [hxd]
      dsimp
      positivity
    have hSQ : (0:ℚ) < (S:ℚ) := by exact_mod_cast (by omega : 0 < S)
    have hxval : x.val = (N:ℚ) / (S:ℚ) := by
      rw [hxd]
      unfold Frac.val
      dsimp
      push_cast
      ring
    by_cases hr0 : N % S = 0
    · have hsplit2 : S * q + N % S = N := Nat.div_add_mod N S
      have hNSq : N = S * q := by omega
      have hxvq : x.val = ((q:ℤ):ℚ) := by
        rw [hxval, hNSq]
        push_cast
        field_simp
      have hrnd : (rnd x).val = ((q:ℤ):ℚ) :=
        rnd_int_val hxden hxvq (by positivity)
          (by exact_mod_cast (by omega : q < 2 ^ 53))
      exact trunc_int_val (rnd_den_pos hxden) hrnd (by positivity)
    · have hr1 : 1 ≤ N % S := by omega
      have hb := rnd_val_bound hxden hxnum
      have hx100 : x.val ≤ 100 := by
        rw [hxval, div_le_iff hSQ]
        have h : (N:ℚ) ≤ 100 * S := by exact_mod_cast hNS
        linarith
      have hx0 : 0 ≤ x.val := (Frac.val_nonneg_iff hxden).mpr hxnum
      have hdelta : |(rnd x).val - x.val| ≤ (1:ℚ)/2^45 := by
        calc |(rnd x).val - x.val| ≤ x.val / 2^53 := hb
          _ ≤ 100 / 2^53 := by gcongr
          _ ≤ 1/2^45 := by norm_num
      have h1S : (1:ℚ)/2^40 ≤ 1/(S:ℚ) :=
        one_div_le_one_div_of_le hSQ (by exact_mod_cast hs)
      have habs := abs_le.mp hdelta
      have hx_lb : (q:ℚ) + 1/(S:ℚ) ≤ x.val := by
        rw [hxval]
        have hsplit : N = S * q + N % S := (Nat.div_add_mod N S).symm
        have hsplitQ : (N:ℚ) = (S:ℚ) * (q:ℚ) + ((N % S : ℕ):ℚ) := by
          exact_mod_cast hsplit
        have hr1Q : (1:ℚ) ≤ ((N % S : ℕ):ℚ) := by exact_mod_cast hr1
        rw [le_div_iff hSQ]
        have hcancel : (1/(S:ℚ)) * (S:ℚ) = 1 := by
          field_simp
        nlinarith [hsplitQ, hr1Q, hcancel]
      have hfl : ⌊(rnd x).val⌋ = (q:ℤ) := by
        rw [Int.floor_eq_iff]
        constructor
        · push_cast
          have h45 : (1:ℚ)/2^45 < 1/2^40 := by norm_num
          linarith
        · push_cast
          have h45 : (1:ℚ)/2^45 < 1/2^40 := by norm_num
          rw [hxval] at habs
          linarith [hhigh, habs.2]
      rw [Frac.trunc_nonneg_val (rnd_den_pos hxden)
        (rnd_val_nonneg hxden hxnum)]
      exact hfl

set_option maxHeartbeats 1600000 in
/-- With `digit_multiplier ≥ 1` and realizable lengths, the quick ratio is
an upper bound for the exact score. -/
theorem computeScore_le_rqr (dm : Frac) (a b : Str) (hden : 0 < dm.den)
    (h1 : 1 ≤ dm.val) (hs : a.length + b.length ≤ 2 ^ 40) (k : ℤ)
    (hk : computeScore dm a b = .ok k) : k ≤ realQuickRatio a b := by
  by_cases h00 : a.length = 0 ∧ b.length = 0
  · unfold computeScore at hk
    rw [if_pos h00] at hk
    injection hk with hk2
    unfold realQuickRatio
    rw [if_pos h00]
    omega
  · by_cases h0 : a.length = 0 ∨ b.length = 0
    · unfold computeScore at hk
      rw [if_neg h00, if_pos h0] at hk
      injection hk with hk2
      rw [realQuickRatio_eq a b hs, if_neg h00]
      have hmin : min a.length b.length = 0 := by
        rcases h0 with h | h <;> simp [h]
      rw [hmin]
      norm_num
      omega
    · have hla : 1 ≤ a.length := by omega
      have hlb : 1 ≤ b.length := by omega
      rw [realQuickRatio_eq a b hs, if_neg h00]
      unfold computeScore at hk
      rw [if_neg h00, if_neg h0] at hk
      dsimp only at hk
      by_cases htz : ((Frac.ofInt (matchesOf (getMatchingBlocks a b) : ℤ)).add
          ((penaltyAt dm a (diffA 0 (getMatchingBlocks a b))).add
            (penaltyAt dm b (diffB 0 (getMatchingBlocks a b))))).num = 0
      · rw [if_pos htz] at hk
        exact Except.noConfusion hk
      · rw [if_neg htz] at hk
        injection hk with hk2
        subst hk2
        set m := matchesOf (getMatchingBlocks a b) with hmdef
        set p := (penaltyAt dm a (diffA 0 (getMatchingBlocks a b))).add
          (penaltyAt dm b (diffB 0 (getMatchingBlocks a b))) with hpdef
        set t := (Frac.ofInt (m:ℤ)).add p with htdef
        set M := min a.length b.length with hMdef
        set S := a.length + b.length with hSdef
        clear_value t p m M S
        -- basic alignment facts
        have hm_a : m ≤ a.length := by
          rw [hmdef]
          exact matches_le_left a b
        have hm_b : m ≤ b.length := by
          rw [hmdef]
          exact matches_le_right a b
        have hmM : m ≤ M := by
          rw [hMdef]
          exact le_min hm_a hm_b
        have h2M : 2 * M ≤ S := by
          rw [hMdef, hSdef]
          have h1' := Nat.min_le_left a.length b.length
          have h2' := Nat.min_le_right a.length b.length
          omega
        -- denominators and values
        have hpAden := penaltyAt_den_pos hden a
          (diffA 0 (getMatchingBlocks a b))
        have hpBden := penaltyAt_den_pos hden b
          (diffB 0 (getMatchingBlocks a b))
        have hpden : 0 < p.den := by
          rw [hpdef]
          exact Frac.den_add_pos hpAden hpBden
        have htden : 0 < t.den := by
          rw [htdef]
          exact Frac.den_add_pos (by norm_num [Frac.ofInt]) hpden
        have hpval : ((a.length - m : ℕ) : ℚ) + ((b.length - m : ℕ) : ℚ) ≤
            p.val := by
          rw [hpdef, Frac.val_add (ne_of_gt hpAden) (ne_of_gt hpBden)]
          have hA := penaltyAt_val_ge hden h1 a
            (diffA 0 (getMatchingBlocks a b))
          have hB := penaltyAt_val_ge hden h1 b
            (diffB 0 (getMatchingBlocks a b))
          have hlA : (diffA 0 (getMatchingBlocks a b)).length =
              a.length - m := by
            have := diffA_full_length a b
            omega
          have hlB : (diffB 0 (getMatchingBlocks a b)).length =
              b.length - m := by
            have := diffB_full_length a b
            omega
          rw [hlA] at hA
          rw [hlB] at hB
          linarith
        have hp0 : 0 ≤ p.val := by
          have h1' : (0:ℚ) ≤ ((a.length - m : ℕ) : ℚ) := by positivity
          have h2' : (0:ℚ) ≤ ((b.length - m : ℕ) : ℚ) := by positivity
          linarith
        have htval : t.val = (m:ℚ) + p.val := by
          rw [htdef, Frac.val_add (by norm_num [Frac.ofInt])
            (ne_of_gt hpden), Frac.val_ofInt]
          push_cast
          ring
        have hcastA : ((a.length - m : ℕ) : ℚ) = (a.length : ℚ) - m := by
          push_cast [hm_a]
          ring
        have hcastB : ((b.length - m : ℕ) : ℚ) = (b.length : ℚ) - m := by
          push_cast [hm_b]
          ring
        have hSQ : (0:ℚ) < (S:ℚ) := by
          exact_mod_cast (by omega : 0 < S)
        have ht_lb : (S:ℚ) - m ≤ t.val := by
          rw [htval]
          rw [hcastA, hcastB] at hpval
          have hScast : ((S:ℕ):ℚ) = (a.length : ℚ) + (b.length : ℚ) := by
            rw [hSdef]
            push_cast
            ring
          rw [hScast]
          linarith
        have htpos : 0 < t.val := by
          have hmb : (m:ℚ) + 1 ≤ (S:ℚ) := by
            exact_mod_cast (by omega : m + 1 ≤ S)
          linarith
        have htnum : 0 < t.num := (Frac.val_pos_iff htden).mp htpos
        -- the division
        have hq0 : (Frac.ofInt (m:ℤ)).div t = ⟨(m:ℤ) * t.den, 1 * t.num⟩ := by
          unfold Frac.div
          rw [if_neg (by omega : ¬ t.num < 0)]
          rfl
        set x : Frac := ⟨(m:ℤ) * t.den, 1 * t.num⟩ with hxd
        clear_value x
        have hxden : 0 < x.den := by
          rw [hxd]
          show (0:ℤ) < 1 * t.num
          omega
        have hxnum : 0 ≤ x.num := by
          rw [hxd]
          show (0:ℤ) ≤ (m:ℤ) * t.den
          exact mul_nonneg (by positivity) (le_of_lt htden)
        have hxval : x.val = (m:ℚ) / t.val := by
          rw [show x = (Frac.ofInt (m:ℤ)).div t from hq0.symm,
            Frac.val_div (by norm_num [Frac.ofInt]) (ne_of_gt htden)
              (ne_of_gt htnum), Frac.val_ofInt]
          norm_cast
        have hx0 : 0 ≤ x.val := (Frac.val_nonneg_iff hxden).mpr hxnum
        have hx1' : x.val ≤ 1 := by
          rw [hxval, div_le_one htpos, htval]
          linarith
        -- exact ratio bound
        have hkey : 100 * x.val ≤ ((100 * 2 * M : ℕ) : ℚ) / (S:ℚ) := by
          rw [hxval, mul_div_assoc', div_le_div_iff htpos hSQ]
          have hmMQ : (m:ℚ) ≤ (M:ℚ) := by exact_mod_cast hmM
          have h2MQ : 2 * (M:ℚ) ≤ (S:ℚ) := by exact_mod_cast h2M
          have hM0 : (0:ℚ) ≤ (M:ℚ) := by positivity
          have hm0 : (0:ℚ) ≤ (m:ℚ) := by positivity
          have hNcast : ((100 * 2 * M : ℕ) : ℚ) = 200 * (M:ℚ) := by
            push_cast
            ring
          rw [hNcast]
          have hA' : 200 * (M:ℚ) * ((S:ℚ) - m) ≤ 200 * M * t.val :=
            mul_le_mul_of_nonneg_left ht_lb (by positivity)
          nlinarith [mul_nonneg (mul_nonneg (by norm_num : (0:ℚ) ≤ 100) hM0)
            (by linarith : (0:ℚ) ≤ (S:ℚ) - 2 * m),
            mul_le_mul_of_nonneg_right hmMQ (le_of_lt hSQ)]
        -- rounding chain
        have hb1 := rnd_val_bound hxden hxnum
        have hx1den : 0 < (rnd x).den := rnd_den_pos hxden
        have hx1v0 : 0 ≤ (rnd x).val := rnd_val_nonneg hxden hxnum
        have hx1num : 0 ≤ (rnd x).num := (Frac.val_nonneg_iff hx1den).mp hx1v0
        have hyden : 0 < ((Frac.ofInt 100).mul (rnd x)).den :=
          Frac.den_mul_pos (by norm_num [Frac.ofInt]) hx1den
        have hyval : ((Frac.ofInt 100).mul (rnd x)).val = 100 * (rnd x).val := by
          rw [Frac.val_mul (by norm_num [Frac.ofInt]) (ne_of_gt hx1den),
            Frac.val_ofInt]
          norm_num
        have hynum : 0 ≤ ((Frac.ofInt 100).mul (rnd x)).num := by
          have : ((Frac.ofInt 100).mul (rnd x)).num = 100 * (rnd x).num := by
            rw [Frac.ofInt]
            rfl
          rw [this]
          positivity
        have hb2 := rnd_val_bound hyden hynum
        have hx2den : 0 < (rnd ((Frac.ofInt 100).mul (rnd x))).den :=
          rnd_den_pos hyden
        have hx2v0 : 0 ≤ (rnd ((Frac.ofInt 100).mul (rnd x))).val :=
          rnd_val_nonneg hyden hynum
        -- identify k with the truncation
        have hkeq : fratio100 (Frac.ofInt (m:ℤ)) t =
            (rnd ((Frac.ofInt 100).mul (rnd x))).trunc := by
          unfold fratio100
          rw [hq0]
        rw [hkeq, Frac.trunc_nonneg_val hx2den hx2v0]
        -- floor bounds
        obtain ⟨hfloor, hlow, hhigh⟩ := floor_ratio_facts (100 * 2 * M) S
          (by omega)
        rw [hfloor]
        -- error bounds
        have habs1 := abs_le.mp hb1
        have habs2 := abs_le.mp hb2
        have hx1ub : (rnd x).val ≤ x.val + 1/2^53 := by
          have : x.val / 2^53 ≤ 1/2^53 := by gcongr
          linarith [habs1.2]
        have hyub : ((Frac.ofInt 100).mul (rnd x)).val ≤ 100 * x.val +
            100/2^53 := by
          rw [hyval]
          linarith
        have hyub2 : ((Frac.ofInt 100).mul (rnd x)).val ≤ 102 := by
          rw [hyval]
          have : (rnd x).val ≤ 1 + 1/2^53 := by linarith
          linarith
        have hx2ub : (rnd ((Frac.ofInt 100).mul (rnd x))).val ≤
            100 * x.val + 100/2^53 + 102/2^53 := by
          have h2 : ((Frac.ofInt 100).mul (rnd x)).val / 2^53 ≤ 102/2^53 := by
            gcongr
          linarith [habs2.2]
        have h1S : (1:ℚ)/2^40 ≤ 1/(S:ℚ) :=
          one_div_le_one_div_of_le hSQ (by exact_mod_cast hs)
        have hfinal : (rnd ((Frac.ofInt 100).mul (rnd x))).val <
            ((100 * 2 * M / S : ℕ) : ℚ) + 1 := by
          have hsm : (100:ℚ)/2^53 + 102/2^53 < 1/2^41 := by norm_num
          have h41 : (1:ℚ)/2^41 < 1/2^40 := by norm_num
          linarith [hkey, hhigh, hx2ub]
        have hlt : ⌊(rnd ((Frac.ofInt 100).mul (rnd x))).val⌋ <
            ((100 * 2 * M / S : ℕ) : ℤ) + 1 := by
          rw [Int.floor_lt, Int.cast_add, Int.cast_one, Int.cast_natCast]
          exact hfinal
        omega

/-- C2, counterexample: with the in-range multiplier `dm = 1/4 > 0`,
`real_quick_ratio("ab1","ab") = 80` but `compute_score` returns `88`:
the claimed upper-bound property fails because unmatched digits can be
penalized with weight less than 1. -/
theorem c2_counterexample :
    (0:ℤ) < (Frac.mk 1 4).num ∧ (0:ℤ) < (Frac.mk 1 4).den ∧
    realQuickRatio "ab1".toList "ab".toList = 80 ∧
    computeScore (Frac.mk 1 4) "ab1".toList "ab".toList = .ok 88 := by
  refine ⟨by decide, by decide, by decide, by decide⟩

/-- C2, amended: for multipliers `dm ≥ 1` (the repository always uses
integers ≥ 1) and strings of combined length at most `2 ^ 40`,
`real_quick_ratio` equals the claimed exact floor formula (100 when both
strings are empty) and is an upper bound on every successful
`compute_score` value. -/
theorem c2_amended (dm : Frac) (a b : Str) (hden : 0 < dm.den)
    (h1 : 1 ≤ dm.val) (hs : a.length + b.length ≤ 2 ^ 40) :
    (realQuickRatio a b =
      if a.length = 0 ∧ b.length = 0 then 100
      else ⌊((100 * 2 * min a.length b.length : ℕ) : ℚ) /
             ((a.length + b.length : ℕ) : ℚ)⌋) ∧
    ∀ k : ℤ, computeScore dm a b = .ok k → k ≤ realQuickRatio a b :=
  ⟨realQuickRatio_eq a b hs,
   fun k hk => computeScore_le_rqr dm a b hden h1 hs k hk⟩

/-- Witness for C2 at `dm = 3`, `a = "ab1"`, `b = "ab"`. -/
theorem c2_amended_witness :
    realQuickRatio "ab1".toList "ab".toList =
      (if ("ab1".toList : Str).length = 0 ∧ ("ab".toList : Str).length = 0
       then 100
       else ⌊((100 * 2 * min ("ab1".toList : Str).length
                ("ab".toList : Str).length : ℕ) : ℚ) /
              ((("ab1".toList : Str).length +
                ("ab".toList : Str).length : ℕ) : ℚ)⌋) :=
  (c2_amended (.ofInt 3) "ab1".toList "ab".toList (by norm_num [Frac.ofInt])
    (by norm_num [Frac.val, Frac.ofInt])
    (by norm_num)).1

/-- C10: `preproc_string` returns `None` on an empty input sequence, a pair
of plain scalar strings for exactly one input, and a pair of arrays (of
matching length) for two or more inputs. -/
theorem c10_preproc_shape (rr : Bool) :
    (preprocString [] rr = none) ∧
    (∀ s : Str, ∃ r f : Str, preprocString [s] rr = some (.scalars r f)) ∧
    (∀ l : List Str, 2 ≤ l.length →
      ∃ rs fs : List Str, preprocString l rr = some (.arrays rs fs) ∧
        rs.length = l.length ∧ fs.length = l.length) := by
  refine ⟨rfl, ?_, ?_⟩
  · intro s
    exact ⟨_, _, rfl⟩
  · intro l hl
    unfold preprocString
    rw [if_neg (by omega)]
    rw [if_neg (by
      by_cases hrr : rr = true <;>
        simp [hrr, List.length_map, List.length_zip] <;> omega)]
    refine ⟨_, _, rfl, ?_, ?_⟩ <;>
      by_cases hrr : rr = true <;>
        simp [hrr, List.length_map, List.length_zip]

end FuzzyMatch
